import Mathlib

/-!
Verification of the data-loading, indexing, search, lookup and settings layer of
the Mental Omega Arsenal application (src/mental_omega_arsenal_layout2.py).

The Python code is shallowly embedded: the filesystem is a value of type FS
(which directories exist, and the parse results of the json files each
directory contains), Python dicts are association lists with first-key-wins
lookup / in-place update semantics, and the DataManager loading pipeline
(_load_data, _load_units_from_directory, _load_category_units,
_build_search_index, search_units, get_units_for_path) is translated
function by function.  ThemeManager.load_settings / save_settings are
embedded at the end.
-/

namespace MOA

/-! ### String helpers

Python string primitives used by the code, embedded over the character list
of a string so that every definition reduces in the kernel:
  - s.replace(" ", r): the pattern is the single character " ", so the
    replacement substitutes each space character;
  - " " in s (substring test on a single space) is character containment;
  - s.split()[0] for the names appearing in FACTION_HIERARCHY (single
    internal spaces, no leading/trailing whitespace) is the longest
    space-free prefix;
  - s.lower() is per-character lowercasing (all names in the data are ASCII);
  - string comparison in Python is code-point lexicographic.
-/

/-- Python s.replace(" ", rep) : substitute every space character. -/
def replaceSpace (s : String) (rep : String) : String :=
  ⟨s.data.flatMap (fun c => if c = ' ' then rep.data else [c])⟩

/-- Python s.lower() (per-character lowercasing). -/
def lowerStr (s : String) : String :=
  ⟨s.data.map Char.toLower⟩

/-- Python s.split()[0] for strings without leading whitespace:
the longest prefix free of spaces. -/
def firstWord (s : String) : String :=
  ⟨s.data.takeWhile (fun c => c ≠ ' ')⟩

/-- Code-point comparison of characters, as Python compares strings. -/
def charLtB (a b : Char) : Bool := a.toNat < b.toNat

/-- Lexicographic less-or-equal on character lists (Python string <=). -/
def listLeB : List Char → List Char → Bool
  | [], _ => true
  | _ :: _, [] => false
  | a :: as, b :: bs =>
    if charLtB a b then true
    else if charLtB b a then false
    else listLeB as bs

/-- Python string less-or-equal (code-point lexicographic). -/
def strLeB (s t : String) : Bool := listLeB s.data t.data

/-- Bool prefix test on character lists. -/
def isPrefixB : List Char → List Char → Bool
  | [], _ => true
  | _ :: _, [] => false
  | a :: as, b :: bs => a = b && isPrefixB as bs

/-- Python substring test (needle in haystack) on character lists. -/
def containsSub (needle : List Char) : List Char → Bool
  | [] => isPrefixB needle []
  | b :: bs => isPrefixB needle (b :: bs) || containsSub needle bs

/-- Python substring test on strings: needle in haystack. -/
def strContains (haystack needle : String) : Bool :=
  containsSub needle.data haystack.data

/-! ### JSON values and unit files -/

/-- A JSON value, for the payload fields of a unit record
(infobox_data values and article_tables). -/
inductive Json where
  | null
  | bool (b : Bool)
  | num (n : Int)
  | str (s : String)
  | arr (xs : List Json)
  | obj (fields : List (String × Json))

/-- The parsed content of a unit .json file: the keys the loader reads
(_load_category_units lines 243-252).  A missing key is none, in which case
the corresponding .get default applies. -/
structure UnitJson where
  unit_name : Option String
  infobox_data : Option (List (String × Json))
  icon_filename : Option String
  icon_url : Option String
  article_tables : Option (List Json)

/-- A .json file of a category directory: its stem (file name without
extension) and its parse result; none models a file whose open/parse raises
(json.JSONDecodeError etc.), which the loader skips. -/
structure JFile where
  stem : String
  content : Option UnitJson

/-- The filesystem as the loader observes it: which paths exist
(Path.exists) and, for each directory, the .json files that
category_dir.glob returns, in glob order.  Paths are component lists. -/
structure FS where
  pathExists : List String → Bool
  files : List String → List JFile

/-! ### Data classes (UnitData, SearchItem, lines 91-110) -/

/-- Data class for unit information (class UnitData). -/
structure UnitData where
  name : String
  faction : String
  subfaction : String
  category : String
  infobox_data : List (String × Json)
  icon_filename : String
  icon_url : String
  article_tables : List Json

/-- Data class for search results (class SearchItem). -/
structure SearchItem where
  name : String
  faction : String
  subfaction : String
  category : String
  unit_data : UnitData

/-! ### Python dicts as association lists

A Python dict preserves insertion order; assignment to an existing key
replaces the value in place, assignment to a fresh key appends, del removes
the key.  getA returns the value of the (unique) matching key.
-/

/-- Dict lookup: d.get(k) / d[k]. -/
def getA {α : Type} : List (String × α) → String → Option α
  | [], _ => none
  | p :: d, k => if p.1 = k then some p.2 else getA d k

/-- Dict assignment d[k] = v: replace in place, or append a fresh key. -/
def setA {α : Type} : List (String × α) → String → α → List (String × α)
  | [], k, v => [(k, v)]
  | p :: d, k, v => if p.1 = k then (k, v) :: d else p :: setA d k v

/-- In-place mutation of an existing entry (d[k].extend(..) etc.); absent
keys are untouched (the code only mutates keys it has created). -/
def modifyA {α : Type} : List (String × α) → String → (α → α) → List (String × α)
  | [], _, _ => []
  | p :: d, k, f => if p.1 = k then (k, f p.2) :: d else p :: modifyA d k f

/-- Dict deletion: del d[k]. -/
def eraseA {α : Type} : List (String × α) → String → List (String × α)
  | [], _ => []
  | p :: d, k => if p.1 = k then d else p :: eraseA d k

/-! ### Configuration (lines 26-69)

FACTION_HIERARCHY as the data layer reads it: DataManager iterates the
faction keys in declaration order and, per faction, the subfaction keys in
declaration order; the icon strings of the hierarchy are consumed only by
the UI and are dropped here. -/

/-- Faction hierarchy structure: faction name with its subfaction names. -/
def FACTION_HIERARCHY : List (String × List String) :=
  [("Allied Nations", ["United States", "European Alliance", "Pacific Front"]),
   ("Soviet Union", ["Russia", "Latin Confederation", "China"]),
   ("Epsilon Army", ["PsiCorps", "Scorpion Cell", "Epsilon Headquarters"]),
   ("Foehn Revolt", ["Haihead", "Last Bastion", "Wings of Coronia"])]

/-- Unit categories. -/
def UNIT_CATEGORIES : List String :=
  ["Structures", "Defenses", "Infantry", "Vehicles", "Aircraft", "Support powers"]

/-- The data root: Path("sterilized data box") (line 127). -/
def dataPath : List String := ["sterilized data box"]

/-- temp_subfaction = "_base_faction_" (line 171). -/
def tempSub : String := "_base_faction_"

/-! ### DataManager state -/

/-- The nested faction_units mapping: faction -> subfaction -> category ->
list of UnitData. -/
abbrev FU := List (String × List (String × List (String × List UnitData)))

/-- The mutable fields of DataManager (lines 119-122). -/
structure DM where
  units : List (String × UnitData)
  search_index : List SearchItem
  faction_units : FU

/-! ### The catalog loader (_load_units_from_directory, _load_category_units) -/

/-- Faction directory name variants, tried in order (lines 151-155). -/
def factionVariants (name : String) : List String :=
  [name, replaceSpace name "_", replaceSpace name ""]

/-- Subfaction directory name variants, tried in order (lines 191-196);
the fourth entry is the first whitespace-delimited token for multi-word
names. -/
def subfactionVariants (name : String) : List String :=
  [name, replaceSpace name "_", replaceSpace name "",
   if name.data.contains ' ' then firstWord name else name]

/-- Try each variant under base, returning the first directory that exists
(lines 157-162 and 198-203). -/
def findDir (fs : FS) (base : List String) : List String → Option (List String)
  | [] => none
  | v :: vs => if fs.pathExists (base ++ [v]) then some (base ++ [v]) else findDir fs base vs

/-- category.replace(" ", "_") (line 233). -/
def catDirName (c : String) : String := replaceSpace c "_"

/-- The unit record built from a parsed file (lines 243-252). -/
def mkUnit (faction subfaction category : String) (file : JFile) (j : UnitJson) : UnitData :=
  { name := j.unit_name.getD file.stem
    faction := faction
    subfaction := subfaction
    category := category
    infobox_data := j.infobox_data.getD []
    icon_filename := j.icon_filename.getD ""
    icon_url := j.icon_url.getD ""
    article_tables := j.article_tables.getD [] }

/-- unit_key = f"faction_subfaction_category_name" (line 255). -/
def unitKey (faction subfaction category name : String) : String :=
  faction ++ "_" ++ subfaction ++ "_" ++ category ++ "_" ++ name

/-- Assignment faction_units[f][s][c] = x through the nested dicts. -/
def setViewFU (fu : FU) (f s c : String) (x : List UnitData) : FU :=
  modifyA fu f (fun fd => modifyA fd s (fun sd => setA sd c x))

/-- In-place mutation of the list faction_units[f][s][c]. -/
def modViewFU (fu : FU) (f s c : String) (g : List UnitData → List UnitData) : FU :=
  modifyA fu f (fun fd => modifyA fd s (fun sd => modifyA sd c g))

/-- The option-valued view of the list faction_units[f][s][c]. -/
def bview (fu : FU) (faction subfaction category : String) : Option (List UnitData) :=
  ((getA fu faction).bind (fun fd => getA fd subfaction)).bind
    (fun sd => getA sd category)

/-- The content of a (faction, subfaction, category) bucket;
[] when a key on the path is absent. -/
def getBucket (fu : FU) (faction subfaction category : String) : List UnitData :=
  (bview fu faction subfaction category).getD []

/-- The guarded bucket append (lines 258-269): append the unit to
faction_units[faction][subfaction][category] only when all three keys are
present, otherwise only print a message. -/
def appendBucketChecked (fu : FU) (faction subfaction category : String) (u : UnitData) : FU :=
  match getA fu faction with
  | none => fu
  | some fd =>
    match getA fd subfaction with
    | none => fu
    | some sd =>
      match getA sd category with
      | none => fu
      | some l => setViewFU fu faction subfaction category (l ++ [u])

/-- Processing of one json file (the try-body, lines 239-269): a file whose
parse fails is skipped; otherwise the unit is stored in self.units and
appended to its bucket. -/
def loadFile (faction subfaction category : String) (dm : DM) (file : JFile) : DM :=
  match file.content with
  | none => dm
  | some j =>
    let u := mkUnit faction subfaction category file j
    let dm1 : DM :=
      { dm with units := setA dm.units (unitKey faction subfaction category u.name) u }
    { dm1 with
      faction_units := appendBucketChecked dm1.faction_units faction subfaction category u }

/-- The loop over a category directory's json files (line 238). -/
def loadFiles (faction subfaction category : String) (files : List JFile) (dm : DM) : DM :=
  files.foldl (loadFile faction subfaction category) dm

/-- The loop of _load_category_units over a category list (lines 232-238),
generalized over the list so that it can be reasoned about by induction. -/
def loadCats (fs : FS) (dir : List String) (faction subfaction : String)
    (cats : List String) (dm : DM) : DM :=
  cats.foldl (fun dm0 cat =>
    let cdir := dir ++ [catDirName cat]
    if fs.pathExists cdir then loadFiles faction subfaction cat (fs.files cdir) dm0
    else dm0) dm

/-- _load_category_units (lines 230-281). -/
def load_category_units (fs : FS) (dir : List String) (faction subfaction : String)
    (dm : DM) : DM :=
  loadCats fs dir faction subfaction UNIT_CATEGORIES dm

/-- The seen-set/unique-list deduplication loop (lines 215-220): keep the
first occurrence of each name. -/
def dedupGo (seen : List String) : List UnitData → List UnitData
  | [] => []
  | u :: us => if u.name ∈ seen then dedupGo seen us else u :: dedupGo (u.name :: seen) us

/-- Deduplicate a bucket by unit name, first occurrence kept. -/
def dedupByName (l : List UnitData) : List UnitData := dedupGo [] l

/-- Stable insertion into a key-sorted list: the new element goes after all
elements whose key is <= its key. -/
def insertSorted {α : Type} (key : α → String) (u : α) : List α → List α
  | [] => [u]
  | v :: vs =>
    if strLeB (key v) (key u) then v :: insertSorted key u vs else u :: v :: vs

/-- Python sorted(l, key=..) : a stable sort by the key, embedded as stable
insertion sort (extensionally equal to any stable sort by the key). -/
def sortByKey {α : Type} (key : α → String) (l : List α) : List α :=
  l.foldl (fun acc u => insertSorted key u acc) []

/-- sorted(unique_units, key=lambda u: u.name) after dedup (line 221). -/
def sortDedup (l : List UnitData) : List UnitData :=
  sortByKey (fun u => u.name) (dedupByName l)

/-- The inheritance extend loop (lines 210-211 and 227-228):
for category, units in base_faction_units.items():
  faction_units[faction][subfaction][category].extend(units). -/
def extendAll (faction subfaction : String) (base : List (String × List UnitData))
    (dm : DM) : DM :=
  base.foldl (fun dm0 p =>
    { dm0 with
      faction_units :=
        modViewFU dm0.faction_units faction subfaction p.1 (fun l => l ++ p.2) }) dm

/-- The dedup-and-sort loop over categories (lines 214-221). -/
def dedupSortAll (faction subfaction : String) (cats : List String) (dm : DM) : DM :=
  cats.foldl (fun dm0 c =>
    { dm0 with
      faction_units := modViewFU dm0.faction_units faction subfaction c sortDedup }) dm

/-- Processing of one declared subfaction (lines 189-228): resolve its
directory under faction_dir/subfaction/; if found, load its categories,
extend every category with the base-faction units and dedup-and-sort;
if not found, only extend with the base-faction units. -/
def processSubfaction (fs : FS) (faction : String) (fdir : List String)
    (base : List (String × List UnitData)) (dm : DM) (sname : String) : DM :=
  match findDir fs (fdir ++ ["subfaction"]) (subfactionVariants sname) with
  | some sdir =>
    dedupSortAll faction sname UNIT_CATEGORIES
      (extendAll faction sname base
        (load_category_units fs sdir faction sname dm))
  | none => extendAll faction sname base dm

/-- Lines 170-176: faction_units[faction][temp] = {} and then one empty
list per category. -/
def initTemp (faction : String) (fu : FU) : FU :=
  UNIT_CATEGORIES.foldl
    (fun fu0 c => setViewFU fu0 faction tempSub c [])
    (modifyA fu faction (fun fd => setA fd tempSub ([] : List (String × List UnitData))))

/-- self.faction_units[faction][temp][category].copy() for every category
(lines 181-183). -/
def baseOf (fu : FU) (faction : String) : List (String × List UnitData) :=
  UNIT_CATEGORIES.map (fun c => (c, getBucket fu faction tempSub c))

/-- Processing of one faction (lines 149-228). -/
def processFaction (fs : FS) (dm : DM) (entry : String × List String) : DM :=
  match findDir fs dataPath (factionVariants entry.1) with
  | none => dm
  | some fdir =>
    let dm1 : DM := { dm with faction_units := initTemp entry.1 dm.faction_units }
    let dm2 := load_category_units fs fdir entry.1 tempSub dm1
    let base := baseOf dm2.faction_units entry.1
    let dm3 : DM :=
      { dm2 with
        faction_units := modifyA dm2.faction_units entry.1 (fun fd => eraseA fd tempSub) }
    entry.2.foldl (processSubfaction fs entry.1 fdir base) dm3

/-- _load_units_from_directory (lines 147-228). -/
def load_units_from_directory (fs : FS) (dm : DM) : DM :=
  FACTION_HIERARCHY.foldl (processFaction fs) dm

/-- A SearchItem flattened from a unit (lines 287-293). -/
def mkSearchItem (u : UnitData) : SearchItem :=
  { name := u.name, faction := u.faction, subfaction := u.subfaction,
    category := u.category, unit_data := u }

/-- _build_search_index (lines 283-297): flatten self.units.values() in
insertion order, then sort (stably) by name.lower(). -/
def build_search_index (dm : DM) : DM :=
  { dm with
    search_index :=
      sortByKey (fun it => lowerStr it.name)
        (dm.units.map (fun p => mkSearchItem p.2)) }

/-- The initialization of the faction structure (lines 134-139): every
declared faction with every declared subfaction with every category mapped
to an empty list. -/
def initFactionUnits : FU :=
  FACTION_HIERARCHY.map (fun e =>
    (e.1, e.2.map (fun s => (s, UNIT_CATEGORIES.map (fun c => (c, ([] : List UnitData)))))))

/-- _load_data (lines 125-145) starting from the freshly constructed
DataManager (lines 119-123): if the data root is missing, an error dialog
is shown and the manager keeps its empty fields; otherwise the faction
structure is initialized, the directory tree is loaded and the search
index is built. -/
def load_data (fs : FS) : DM :=
  let dm0 : DM := { units := [], search_index := [], faction_units := [] }
  if fs.pathExists dataPath then
    build_search_index
      (load_units_from_directory fs { dm0 with faction_units := initFactionUnits })
  else dm0

/-- Whether a search item matches a (already lowercased) query
(lines 307-311). -/
def itemMatches (ql : String) (it : SearchItem) : Bool :=
  strContains (lowerStr it.name) ql || strContains (lowerStr it.faction) ql ||
  strContains (lowerStr it.subfaction) ql || strContains (lowerStr it.category) ql

/-- search_units (lines 299-314): an empty query is falsy and returns [];
otherwise the index is linearly filtered. -/
def search_units (dm : DM) (query : String) : List SearchItem :=
  if query = "" then []
  else dm.search_index.filter (itemMatches (lowerStr query))

/-- get_units_for_path (lines 316-342). -/
def get_units_for_path (dm : DM) (faction : String)
    (subfaction category : Option String) : List UnitData :=
  match getA dm.faction_units faction with
  | none => []
  | some fd =>
    match subfaction with
    | none => (fd.map Prod.snd).flatMap (fun sd => (sd.map Prod.snd).flatMap id)
    | some s =>
      match getA fd s with
      | none => []
      | some sd =>
        match category with
        | none => (sd.map Prod.snd).flatMap id
        | some c =>
          match getA sd c with
          | none => []
          | some l => l

/-- The records a category directory contributes under (faction,
subfaction, category): one unit per parsable file of the category
subdirectory, in glob order; [] when the subdirectory is missing. -/
def fileUnit (faction subfaction category : String) (file : JFile) : List UnitData :=
  match file.content with
  | none => []
  | some j => [mkUnit faction subfaction category file j]

/-- All units contributed by a file list. -/
def fileUnits (faction subfaction category : String) (files : List JFile) : List UnitData :=
  files.flatMap (fileUnit faction subfaction category)

/-- The units _load_category_units loads for one category from a resolved
directory. -/
def catLoad (fs : FS) (dir : List String) (faction subfaction category : String) :
    List UnitData :=
  if fs.pathExists (dir ++ [catDirName category]) then
    fileUnits faction subfaction category (fs.files (dir ++ [catDirName category]))
  else []

/-! ### ThemeManager settings persistence (lines 348-386)

Settings values are JSON scalars; non-integral floats are embedded as
rationals (save/load never computes with them, only stores and restores
them, and Python's json round-trips floats exactly). -/

/-- A settings value. -/
inductive SVal where
  | str (s : String)
  | int (n : Int)
  | real (q : ℚ)
  | bool (b : Bool)
deriving DecidableEq

/-- DEFAULT_THEME (lines 72-85). -/
def DEFAULT_THEME : List (String × SVal) :=
  [("bg", .str "#1e1e1e"), ("fg", .str "#ffffff"), ("select_bg", .str "#404040"),
   ("select_fg", .str "#ffffff"), ("button_bg", .str "#2d2d2d"),
   ("button_fg", .str "#ffffff"), ("button_active_bg", .str "#505050"),
   ("title_bg", .str "#2d2d30"), ("title_fg", .str "#ffffff"),
   ("border", .str "#3c3c3c"), ("accent", .str "#007acc"), ("hover", .str "#505050")]

/-- The initial custom_settings dict (lines 353-361). -/
def defaultCustomSettings : List (String × SVal) :=
  [("opacity", .real (9 / 10)), ("font_family", .str "Segoe UI"),
   ("font_size", .int 10), ("font_weight", .str "normal"),
   ("icon_scale", .real 1), ("ui_scale", .real 1), ("bold_text", .bool false)]

/-- The mutable fields of ThemeManager. -/
structure TM where
  current_theme : List (String × SVal)
  custom_settings : List (String × SVal)

/-- The settings file as load_settings observes it: absent (or unreadable
or unparsable, all swallowed by the except) or a parsed object whose
"theme" and "custom" sections default to empty dicts via .get. -/
inductive SettingsFile where
  | absent
  | present (theme : List (String × SVal)) (custom : List (String × SVal))

/-- dict.update(e): assign every key of e in order. -/
def updateA (d e : List (String × SVal)) : List (String × SVal) :=
  e.foldl (fun acc p => setA acc p.1 p.2) d

/-- ThemeManager.load_settings (lines 364-374). -/
def load_settings (tm : TM) (file : SettingsFile) : TM :=
  match file with
  | .absent => tm
  | .present t c =>
    { current_theme := updateA tm.current_theme t,
      custom_settings := updateA tm.custom_settings c }

/-- ThemeManager.save_settings (lines 376-386): the file now holds the
whole theme and custom dicts. -/
def save_settings (tm : TM) : SettingsFile :=
  .present tm.current_theme tm.custom_settings

/-- ThemeManager.__init__ (lines 351-362): defaults, then load_settings. -/
def themeManagerInit (file : SettingsFile) : TM :=
  load_settings { current_theme := DEFAULT_THEME, custom_settings := defaultCustomSettings } file

/-! ### Association-list lemmas -/

theorem getA_setA_self {α : Type} (d : List (String × α)) (k : String) (v : α) :
    getA (setA d k v) k = some v := by
  induction d with
  | nil => simp [setA, getA]
  | cons p d ih =>
    by_cases h : p.1 = k
    · simp [setA, getA, h]
    · simp [setA, getA, h, ih]

theorem getA_setA_ne {α : Type} (d : List (String × α)) {k k' : String} (v : α)
    (h : k' ≠ k) : getA (setA d k v) k' = getA d k' := by
  have h2 : k ≠ k' := Ne.symm h
  induction d with
  | nil => simp [setA, getA, h2]
  | cons p d ih =>
    by_cases hp : p.1 = k
    · simp [setA, getA, hp, h2]
    · by_cases hp' : p.1 = k'
      · simp [setA, getA, hp, hp', h]
      · simp [setA, getA, hp, hp', ih]

theorem getA_modifyA_self {α : Type} {d : List (String × α)} {k : String} {v : α}
    (f : α → α) (h : getA d k = some v) : getA (modifyA d k f) k = some (f v) := by
  induction d with
  | nil => simp [getA] at h
  | cons p d ih =>
    by_cases hp : p.1 = k
    · simp [getA, hp] at h
      simp [modifyA, getA, hp, h]
    · simp [getA, hp] at h
      simp [modifyA, getA, hp, ih h]

theorem getA_modifyA_ne {α : Type} (d : List (String × α)) {k k' : String}
    (f : α → α) (h : k' ≠ k) : getA (modifyA d k f) k' = getA d k' := by
  have h2 : k ≠ k' := Ne.symm h
  induction d with
  | nil => simp [modifyA]
  | cons p d ih =>
    by_cases hp : p.1 = k
    · simp [modifyA, getA, hp, h2]
    · by_cases hp' : p.1 = k'
      · simp [modifyA, getA, hp, hp', h]
      · simp [modifyA, getA, hp, hp', ih]

theorem getA_eraseA_ne {α : Type} (d : List (String × α)) {k k' : String}
    (h : k' ≠ k) : getA (eraseA d k) k' = getA d k' := by
  have h2 : k ≠ k' := Ne.symm h
  induction d with
  | nil => simp [eraseA]
  | cons p d ih =>
    by_cases hp : p.1 = k
    · subst hp
      simp [eraseA, getA, h2]
    · by_cases hp' : p.1 = k'
      · simp [eraseA, getA, hp, hp', h]
      · simp [eraseA, getA, hp, hp', ih]

theorem setA_getA_id {α : Type} {d : List (String × α)} {k : String} {v : α}
    (h : getA d k = some v) : setA d k v = d := by
  induction d with
  | nil => simp [getA] at h
  | cons p d ih =>
    by_cases hp : p.1 = k
    · simp [getA, hp] at h
      obtain ⟨k0, v0⟩ := p
      simp only at hp h
      subst hp
      subst h
      simp [setA]
    · simp [getA, hp] at h
      simp [setA, hp, ih h]

theorem modifyA_fix {α : Type} {d : List (String × α)} {k : String} {v : α}
    {f : α → α} (h : getA d k = some v) (hf : f v = v) : modifyA d k f = d := by
  induction d with
  | nil => simp [getA] at h
  | cons p d ih =>
    by_cases hp : p.1 = k
    · simp [getA, hp] at h
      obtain ⟨k0, v0⟩ := p
      simp only at hp h
      subst hp
      subst h
      simp [modifyA, hf]
    · simp [getA, hp] at h
      simp [modifyA, hp, ih h]

theorem modifyA_modifyA {α : Type} (d : List (String × α)) (k : String) (f g : α → α) :
    modifyA (modifyA d k f) k g = modifyA d k (fun v => g (f v)) := by
  induction d with
  | nil => simp [modifyA]
  | cons p d ih =>
    by_cases hp : p.1 = k
    · simp [modifyA, hp]
    · simp [modifyA, hp, ih]

theorem setA_setA {α : Type} (d : List (String × α)) (k : String) (v w : α) :
    setA (setA d k v) k w = setA d k w := by
  induction d with
  | nil => simp [setA]
  | cons p d ih =>
    by_cases hp : p.1 = k
    · simp [setA, hp]
    · simp [setA, hp, ih]

theorem modifyA_setA_self {α : Type} {d : List (String × α)} {k : String} {v : α}
    (f : α → α) (h : getA d k = some v) :
    modifyA (setA d k v) k f = setA d k (f v) := by
  induction d with
  | nil => simp [getA] at h
  | cons p d ih =>
    by_cases hp : p.1 = k
    · simp [getA, hp] at h
      simp [setA, modifyA, hp]
    · simp [getA, hp] at h
      simp [setA, modifyA, hp, ih h]

theorem mem_iff_getA {α : Type} {d : List (String × α)} (hnd : (d.map Prod.fst).Nodup)
    (k : String) (v : α) : (k, v) ∈ d ↔ getA d k = some v := by
  induction d with
  | nil => simp [getA]
  | cons p d ih =>
    simp only [List.map_cons, List.nodup_cons] at hnd
    constructor
    · intro h
      rcases List.mem_cons.mp h with h | h
      · simp [getA, ← h]
      · have hk : p.1 ≠ k := by
          intro he
          exact hnd.1 (he ▸ (List.mem_map.mpr ⟨(k, v), h, rfl⟩))
        simp [getA, hk, (ih hnd.2).mp h]
    · intro h
      by_cases hp : p.1 = k
      · simp [getA, hp] at h
        refine List.mem_cons.mpr (Or.inl ?_)
        obtain ⟨k0, v0⟩ := p
        simp only at hp h
        subst hp
        subst h
        rfl
      · simp [getA, hp] at h
        exact List.mem_cons_of_mem _ ((ih hnd.2).mpr h)

/-! ### dict.update lemmas (for the settings round-trip) -/

theorem getA_updateA_not_mem {d e : List (String × SVal)} {k : String}
    (h : k ∉ e.map Prod.fst) : getA (updateA d e) k = getA d k := by
  induction e generalizing d with
  | nil => rfl
  | cons p e ih =>
    simp only [List.map_cons, List.mem_cons] at h
    push_neg at h
    show getA (updateA (setA d p.1 p.2) e) k = getA d k
    rw [ih h.2]
    exact getA_setA_ne d p.2 h.1

theorem getA_updateA_mem {d e : List (String × SVal)}
    (hnd : (e.map Prod.fst).Nodup) {k : String} {v : SVal}
    (h : getA e k = some v) : getA (updateA d e) k = some v := by
  induction e generalizing d with
  | nil => simp [getA] at h
  | cons p e ih =>
    simp only [List.map_cons, List.nodup_cons] at hnd
    by_cases hp : p.1 = k
    · simp [getA, hp] at h
      show getA (updateA (setA d p.1 p.2) e) k = some v
      rw [getA_updateA_not_mem (hp ▸ hnd.1), hp, getA_setA_self, h]
    · simp [getA, hp] at h
      show getA (updateA (setA d p.1 p.2) e) k = some v
      exact ih hnd.2 h

/-- C9: saving the settings and loading them back (into a freshly
constructed ThemeManager, as at startup) restores every stored theme and
custom-settings entry, in particular opacity and the scale factors. -/
theorem c9_settings_roundtrip (tm : TM)
    (hndT : (tm.current_theme.map Prod.fst).Nodup)
    (hndC : (tm.custom_settings.map Prod.fst).Nodup) :
    (∀ k v, getA tm.custom_settings k = some v →
       getA (themeManagerInit (save_settings tm)).custom_settings k = some v) ∧
    (∀ k v, getA tm.current_theme k = some v →
       getA (themeManagerInit (save_settings tm)).current_theme k = some v) := by
  constructor
  · intro k v h
    exact getA_updateA_mem hndC h
  · intro k v h
    exact getA_updateA_mem hndT h

/-- C9 witness: the default settings survive a save/load round trip; the
opacity, ui_scale and icon_scale values are restored exactly. -/
theorem c9_settings_roundtrip_witness :
    getA (themeManagerInit (save_settings
        { current_theme := DEFAULT_THEME,
          custom_settings := defaultCustomSettings })).custom_settings "opacity" =
      some (SVal.real (9 / 10)) ∧
    getA (themeManagerInit (save_settings
        { current_theme := DEFAULT_THEME,
          custom_settings := defaultCustomSettings })).custom_settings "ui_scale" =
      some (SVal.real 1) ∧
    getA (themeManagerInit (save_settings
        { current_theme := DEFAULT_THEME,
          custom_settings := defaultCustomSettings })).current_theme "bg" =
      some (SVal.str "#1e1e1e") := by
  refine ⟨?_, ?_, ?_⟩
  · exact (c9_settings_roundtrip _ (by decide) (by decide)).1 "opacity" _ rfl
  · exact (c9_settings_roundtrip _ (by decide) (by decide)).1 "ui_scale" _ rfl
  · exact (c9_settings_roundtrip _ (by decide) (by decide)).2 "bg" _ rfl

/-- C5: search_units applied to the empty string returns the empty list,
whatever the search index holds. -/
theorem c5_empty_query_empty_result (dm : DM) : search_units dm "" = [] := by
  simp [search_units]

/-- C6: get_units_for_path with an unknown faction key, an unknown
subfaction key under a known faction, or an unknown category key under a
known subfaction returns the empty list (the embedding is a total
function: no lookup on these paths can raise). -/
theorem c6_unknown_keys_empty (dm : DM) (F S C : String) :
    (getA dm.faction_units F = none →
       get_units_for_path dm F none none = [] ∧
       get_units_for_path dm F (some S) none = [] ∧
       get_units_for_path dm F (some S) (some C) = []) ∧
    (∀ fd, getA dm.faction_units F = some fd → getA fd S = none →
       get_units_for_path dm F (some S) none = [] ∧
       get_units_for_path dm F (some S) (some C) = []) ∧
    (∀ fd sd, getA dm.faction_units F = some fd → getA fd S = some sd →
       getA sd C = none → get_units_for_path dm F (some S) (some C) = []) := by
  refine ⟨?_, ?_, ?_⟩
  · intro h
    refine ⟨?_, ?_, ?_⟩ <;> simp [get_units_for_path, h]
  · intro fd h hS
    constructor <;> simp [get_units_for_path, h, hS]
  · intro fd sd h hS hC
    simp [get_units_for_path, h, hS, hC]

/-- C6 witness: on an empty catalog every lookup yields []. -/
theorem c6_unknown_keys_empty_witness :
    get_units_for_path { units := [], search_index := [], faction_units := [] }
        "Allied Nations" none none = [] ∧
    get_units_for_path { units := [], search_index := [], faction_units := [] }
        "Allied Nations" (some "Russia") none = [] ∧
    get_units_for_path { units := [], search_index := [], faction_units := [] }
        "Allied Nations" (some "Russia") (some "Infantry") = [] :=
  (c6_unknown_keys_empty
    { units := [], search_index := [], faction_units := [] }
    "Allied Nations" "Russia" "Infantry").1 rfl

/-- C7: for a known faction the lookup with no subfaction returns exactly
the union of all its buckets, and the lookup with a known subfaction
returns exactly the union of that subfaction's category buckets. -/
theorem c7_union_lookup (dm : DM) (F : String)
    (fd : List (String × List (String × List UnitData)))
    (hF : getA dm.faction_units F = some fd)
    (hnd : (fd.map Prod.fst).Nodup)
    (hnd2 : ∀ p ∈ fd, (p.2.map Prod.fst).Nodup) :
    (∀ u, u ∈ get_units_for_path dm F none none ↔
       ∃ S sd, getA fd S = some sd ∧ ∃ C l, getA sd C = some l ∧ u ∈ l) ∧
    (∀ S sd, getA fd S = some sd →
       ∀ u, u ∈ get_units_for_path dm F (some S) none ↔
         ∃ C l, getA sd C = some l ∧ u ∈ l) := by
  constructor
  · intro u
    have h1 : get_units_for_path dm F none none =
        (fd.map Prod.snd).flatMap (fun sd => (sd.map Prod.snd).flatMap id) := by
      simp [get_units_for_path, hF]
    rw [h1, List.mem_flatMap]
    constructor
    · rintro ⟨sd, hsd, hu⟩
      obtain ⟨p, hp, rfl⟩ := List.mem_map.mp hsd
      rw [List.mem_flatMap] at hu
      obtain ⟨l, hl, hul⟩ := hu
      obtain ⟨q, hq, rfl⟩ := List.mem_map.mp hl
      refine ⟨p.1, p.2, ?_, q.1, q.2, ?_, hul⟩
      · exact (mem_iff_getA hnd _ _).mp (by simpa using hp)
      · exact (mem_iff_getA (hnd2 p hp) _ _).mp (by simpa using hq)
    · rintro ⟨S, sd, hS, C, l, hC, hu⟩
      have hp : (S, sd) ∈ fd := (mem_iff_getA hnd _ _).mpr hS
      have hq : (C, l) ∈ sd := (mem_iff_getA (hnd2 _ hp) _ _).mpr hC
      exact ⟨sd, List.mem_map.mpr ⟨(S, sd), hp, rfl⟩,
        List.mem_flatMap.mpr ⟨l, List.mem_map.mpr ⟨(C, l), hq, rfl⟩, hu⟩⟩
  · intro S sd hS u
    have h1 : get_units_for_path dm F (some S) none =
        (sd.map Prod.snd).flatMap id := by
      simp [get_units_for_path, hF, hS]
    rw [h1, List.mem_flatMap]
    constructor
    · rintro ⟨l, hl, hul⟩
      obtain ⟨q, hq, rfl⟩ := List.mem_map.mp hl
      have hp : (S, sd) ∈ fd := (mem_iff_getA hnd _ _).mpr hS
      exact ⟨q.1, q.2, (mem_iff_getA (hnd2 _ hp) _ _).mp (by simpa using hq), hul⟩
    · rintro ⟨C, l, hC, hu⟩
      have hp : (S, sd) ∈ fd := (mem_iff_getA hnd _ _).mpr hS
      have hq : (C, l) ∈ sd := (mem_iff_getA (hnd2 _ hp) _ _).mpr hC
      exact ⟨l, List.mem_map.mpr ⟨(C, l), hq, rfl⟩, hu⟩

/-! ### Bucket-view lemmas -/

theorem getA_setViewFU_ne (fu : FU) {f f' : String} (s c : String) (x : List UnitData)
    (h : f' ≠ f) : getA (setViewFU fu f s c x) f' = getA fu f' :=
  getA_modifyA_ne fu _ h

theorem getA_modViewFU_ne (fu : FU) {f f' : String} (s c : String)
    (g : List UnitData → List UnitData) (h : f' ≠ f) :
    getA (modViewFU fu f s c g) f' = getA fu f' :=
  getA_modifyA_ne fu _ h

theorem bview_setViewFU_self {fu : FU} {f s : String} (c : String) (x : List UnitData)
    {fd : List (String × List (String × List UnitData))}
    {sd : List (String × List UnitData)}
    (hfd : getA fu f = some fd) (hsd : getA fd s = some sd) :
    bview (setViewFU fu f s c x) f s c = some x := by
  unfold bview setViewFU
  rw [getA_modifyA_self _ hfd]
  simp only [Option.some_bind']
  rw [getA_modifyA_self _ hsd]
  simp only [Option.some_bind']
  exact getA_setA_self sd c x

theorem getA_modifyA_none {α : Type} {d : List (String × α)} {k : String}
    (f : α → α) (h : getA d k = none) : getA (modifyA d k f) k = none := by
  induction d with
  | nil => rfl
  | cons p d ih =>
    by_cases hp : p.1 = k
    · rw [getA, if_pos hp] at h
      exact Option.noConfusion h
    · rw [getA, if_neg hp] at h
      rw [modifyA, if_neg hp, getA, if_neg hp]
      exact ih h

theorem bview_setViewFU_frame (fu : FU) {f s c f' s' c' : String} (x : List UnitData)
    (h : f' ≠ f ∨ s' ≠ s ∨ c' ≠ c) :
    bview (setViewFU fu f s c x) f' s' c' = bview fu f' s' c' := by
  unfold bview setViewFU
  by_cases hf : f' = f
  · subst hf
    cases hfd : getA fu f' with
    | none => rw [getA_modifyA_none _ hfd]
    | some fd =>
      rw [getA_modifyA_self _ hfd]
      simp only [Option.some_bind']
      by_cases hs : s' = s
      · subst hs
        cases hsd : getA fd s' with
        | none => rw [getA_modifyA_none _ hsd]
        | some sd =>
          rw [getA_modifyA_self _ hsd]
          simp only [Option.some_bind']
          rcases h with h | h | h
          · exact absurd rfl h
          · exact absurd rfl h
          · exact getA_setA_ne sd x h
      · rw [getA_modifyA_ne fd _ hs]
  · rw [getA_modifyA_ne fu _ hf]

theorem bview_modViewFU_frame (fu : FU) {f s c f' s' c' : String}
    (g : List UnitData → List UnitData) (h : f' ≠ f ∨ s' ≠ s ∨ c' ≠ c) :
    bview (modViewFU fu f s c g) f' s' c' = bview fu f' s' c' := by
  unfold bview modViewFU
  by_cases hf : f' = f
  · subst hf
    cases hfd : getA fu f' with
    | none => rw [getA_modifyA_none _ hfd]
    | some fd =>
      rw [getA_modifyA_self _ hfd]
      simp only [Option.some_bind']
      by_cases hs : s' = s
      · subst hs
        cases hsd : getA fd s' with
        | none => rw [getA_modifyA_none _ hsd]
        | some sd =>
          rw [getA_modifyA_self _ hsd]
          simp only [Option.some_bind']
          rcases h with h | h | h
          · exact absurd rfl h
          · exact absurd rfl h
          · exact getA_modifyA_ne sd _ h
      · rw [getA_modifyA_ne fd _ hs]
  · rw [getA_modifyA_ne fu _ hf]

theorem bview_modViewFU_self {fu : FU} {f s c : String} {l : List UnitData}
    (g : List UnitData → List UnitData) (h : bview fu f s c = some l) :
    bview (modViewFU fu f s c g) f s c = some (g l) := by
  unfold bview at h ⊢
  cases hfd : getA fu f with
  | none => rw [hfd] at h; exact Option.noConfusion h
  | some fd =>
    rw [hfd] at h
    simp only [Option.some_bind'] at h
    cases hsd : getA fd s with
    | none => rw [hsd] at h; exact Option.noConfusion h
    | some sd =>
      rw [hsd] at h
      simp only [Option.some_bind'] at h
      unfold modViewFU
      rw [getA_modifyA_self _ hfd]
      simp only [Option.some_bind']
      rw [getA_modifyA_self _ hsd]
      simp only [Option.some_bind']
      exact getA_modifyA_self g h

theorem setViewFU_setViewFU (fu : FU) (f s c : String) (x y : List UnitData) :
    setViewFU (setViewFU fu f s c x) f s c y = setViewFU fu f s c y := by
  unfold setViewFU
  rw [modifyA_modifyA]
  congr 1
  funext fd
  rw [modifyA_modifyA]
  congr 1
  funext sd
  exact setA_setA sd c x y

theorem setViewFU_self_id {fu : FU} {f s c : String} {l : List UnitData}
    (h : bview fu f s c = some l) : setViewFU fu f s c l = fu := by
  unfold bview at h
  cases hfd : getA fu f with
  | none => rw [hfd] at h; exact Option.noConfusion h
  | some fd =>
    rw [hfd] at h
    simp only [Option.some_bind'] at h
    cases hsd : getA fd s with
    | none => rw [hsd] at h; exact Option.noConfusion h
    | some sd =>
      rw [hsd] at h
      simp only [Option.some_bind'] at h
      unfold setViewFU
      exact modifyA_fix hfd (by rw [modifyA_fix hsd (setA_getA_id h)])

/-- bview decomposed into presence of the two dict levels. -/
theorem bview_some_elim {fu : FU} {f s c : String} {l : List UnitData}
    (h : bview fu f s c = some l) :
    ∃ fd sd, getA fu f = some fd ∧ getA fd s = some sd ∧ getA sd c = some l := by
  unfold bview at h
  cases hfd : getA fu f with
  | none => rw [hfd] at h; exact Option.noConfusion h
  | some fd =>
    rw [hfd] at h
    simp only [Option.some_bind'] at h
    cases hsd : getA fd s with
    | none => rw [hsd] at h; exact Option.noConfusion h
    | some sd =>
      rw [hsd] at h
      simp only [Option.some_bind'] at h
      exact ⟨fd, sd, rfl, hsd, h⟩

/-! ### Characterization of the file-loading folds -/

theorem appendBucketChecked_eq {fu : FU} {f s c : String} {l : List UnitData}
    (u : UnitData) (h : bview fu f s c = some l) :
    appendBucketChecked fu f s c u = setViewFU fu f s c (l ++ [u]) := by
  obtain ⟨fd, sd, hfd, hsd, hl⟩ := bview_some_elim h
  unfold appendBucketChecked
  rw [hfd]
  dsimp only
  rw [hsd]
  dsimp only
  rw [hl]

theorem appendBucketChecked_bview_frame (fu : FU) {f s c f' s' c' : String}
    (u : UnitData) (hne : f' ≠ f ∨ s' ≠ s ∨ c' ≠ c) :
    bview (appendBucketChecked fu f s c u) f' s' c' = bview fu f' s' c' := by
  unfold appendBucketChecked
  cases getA fu f with
  | none => rfl
  | some fd =>
    dsimp only
    cases getA fd s with
    | none => rfl
    | some sd =>
      dsimp only
      cases getA sd c with
      | none => rfl
      | some l => exact bview_setViewFU_frame fu _ hne

theorem appendBucketChecked_getA_ne (fu : FU) {f f' : String} (s c : String)
    (u : UnitData) (hne : f' ≠ f) :
    getA (appendBucketChecked fu f s c u) f' = getA fu f' := by
  unfold appendBucketChecked
  cases getA fu f with
  | none => rfl
  | some fd =>
    dsimp only
    cases getA fd s with
    | none => rfl
    | some sd =>
      dsimp only
      cases getA sd c with
      | none => rfl
      | some l => exact getA_setViewFU_ne fu s c _ hne

theorem loadFile_fu {dm : DM} {f s c : String} {l : List UnitData} (file : JFile)
    (h : bview dm.faction_units f s c = some l) :
    (loadFile f s c dm file).faction_units =
      setViewFU dm.faction_units f s c (l ++ fileUnit f s c file) := by
  unfold loadFile fileUnit
  cases hc : file.content with
  | none =>
    simp only
    rw [List.append_nil, setViewFU_self_id h]
  | some j =>
    simp only
    exact appendBucketChecked_eq _ h

theorem loadFile_bview_frame (dm : DM) {f s c f' s' c' : String} (file : JFile)
    (hne : f' ≠ f ∨ s' ≠ s ∨ c' ≠ c) :
    bview (loadFile f s c dm file).faction_units f' s' c' =
      bview dm.faction_units f' s' c' := by
  unfold loadFile
  cases file.content with
  | none => rfl
  | some j => exact appendBucketChecked_bview_frame _ _ hne

theorem loadFile_getA_ne (dm : DM) {f f' : String} (s c : String) (file : JFile)
    (hne : f' ≠ f) :
    getA (loadFile f s c dm file).faction_units f' = getA dm.faction_units f' := by
  unfold loadFile
  cases file.content with
  | none => rfl
  | some j => exact appendBucketChecked_getA_ne _ s c _ hne

theorem loadFiles_fu {f s c : String} (files : List JFile) :
    ∀ {dm : DM} {l : List UnitData}, bview dm.faction_units f s c = some l →
      (loadFiles f s c files dm).faction_units =
        setViewFU dm.faction_units f s c (l ++ fileUnits f s c files) := by
  induction files with
  | nil =>
    intro dm l h
    show dm.faction_units = setViewFU dm.faction_units f s c (l ++ fileUnits f s c [])
    have : fileUnits f s c [] = [] := rfl
    rw [this, List.append_nil, setViewFU_self_id h]
  | cons file rest ih =>
    intro dm l h
    show (loadFiles f s c rest (loadFile f s c dm file)).faction_units = _
    obtain ⟨fd, sd, hfd, hsd, _⟩ := bview_some_elim h
    have h1 : bview (loadFile f s c dm file).faction_units f s c =
        some (l ++ fileUnit f s c file) := by
      rw [loadFile_fu file h]
      exact bview_setViewFU_self _ _ hfd hsd
    rw [ih h1, loadFile_fu file h, setViewFU_setViewFU]
    have : fileUnits f s c (file :: rest) =
        fileUnit f s c file ++ fileUnits f s c rest := rfl
    rw [this, ← List.append_assoc]

theorem loadFiles_bview_frame {f s c f' s' c' : String} (files : List JFile)
    (hne : f' ≠ f ∨ s' ≠ s ∨ c' ≠ c) :
    ∀ dm : DM, bview (loadFiles f s c files dm).faction_units f' s' c' =
      bview dm.faction_units f' s' c' := by
  induction files with
  | nil => intro dm; rfl
  | cons file rest ih =>
    intro dm
    show bview (loadFiles f s c rest (loadFile f s c dm file)).faction_units f' s' c' = _
    rw [ih, loadFile_bview_frame _ _ hne]

theorem loadFiles_getA_ne {f f' : String} (s c : String) (files : List JFile)
    (hne : f' ≠ f) :
    ∀ dm : DM, getA (loadFiles f s c files dm).faction_units f' =
      getA dm.faction_units f' := by
  induction files with
  | nil => intro dm; rfl
  | cons file rest ih =>
    intro dm
    show getA (loadFiles f s c rest (loadFile f s c dm file)).faction_units f' = _
    rw [ih, loadFile_getA_ne _ s c _ hne]

/-! ### Generic fold lemmas -/

theorem foldl_pres {β σ : Type} (P : σ → Prop) (step : σ → β → σ) (l : List β)
    (h : ∀ x b, b ∈ l → P x → P (step x b)) : ∀ x, P x → P (l.foldl step x) := by
  induction l with
  | nil => intro x hx; exact hx
  | cons b rest ih =>
    intro x hx
    exact ih (fun y b2 hb2 hy => h y b2 (List.mem_cons_of_mem _ hb2) hy) _
      (h x b (List.mem_cons_self _ _) hx)

/-- A fold whose steps each rewrite one category bucket of a fixed
(faction, subfaction) pair: the final bucket at the key of a list member is
the step function applied to the initial bucket, provided the keys are
distinct. -/
theorem fold_view_gen {β : Type} (f s : String) (key : β → String)
    (step : DM → β → DM) (φ : β → List UnitData → List UnitData)
    (hself : ∀ dm b lc, bview dm.faction_units f s (key b) = some lc →
       bview (step dm b).faction_units f s (key b) = some (φ b lc))
    (hframe : ∀ dm b x, key b ≠ x →
       bview (step dm b).faction_units f s x = bview dm.faction_units f s x) :
    ∀ (l : List β), (l.map key).Nodup →
      ∀ b, b ∈ l → ∀ (dm : DM) (lc : List UnitData),
        bview dm.faction_units f s (key b) = some lc →
        bview (l.foldl step dm).faction_units f s (key b) = some (φ b lc) := by
  intro l
  induction l with
  | nil => intro _ b hb; exact absurd hb (List.not_mem_nil b)
  | cons b0 rest ih =>
    intro hnd b hb dm lc hv
    simp only [List.map_cons, List.nodup_cons] at hnd
    rcases List.mem_cons.mp hb with hb0 | hbr
    · subst hb0
      have h1 := hself dm b lc hv
      show bview (rest.foldl step (step dm b)).faction_units f s (key b) = _
      refine foldl_pres
        (fun x => bview x.faction_units f s (key b) = some (φ b lc)) step rest ?_ _ h1
      intro x b2 hb2 hx
      rw [hframe x b2 (key b) ?_]
      · exact hx
      · intro he
        exact hnd.1 (he ▸ List.mem_map.mpr ⟨b2, hb2, rfl⟩)
    · have hkne : key b0 ≠ key b := by
        intro he
        exact hnd.1 (he ▸ List.mem_map.mpr ⟨b, hbr, rfl⟩)
      have hv1 : bview (step dm b0).faction_units f s (key b) = some lc := by
        rw [hframe dm b0 (key b) hkne]
        exact hv
      exact ih hnd.2 b hbr _ _ hv1

/-! ### Characterization of loadCats, extendAll, dedupSortAll -/

theorem loadCats_view (fs : FS) (dir : List String) (f s : String)
    (cats : List String) (hnd : cats.Nodup) {C : String} (hC : C ∈ cats)
    {dm : DM} {lc : List UnitData} (hv : bview dm.faction_units f s C = some lc) :
    bview (loadCats fs dir f s cats dm).faction_units f s C =
      some (lc ++ catLoad fs dir f s C) := by
  refine fold_view_gen f s (fun c => c)
    (fun dm0 cat =>
      if fs.pathExists (dir ++ [catDirName cat]) then
        loadFiles f s cat (fs.files (dir ++ [catDirName cat])) dm0
      else dm0)
    (fun c lc0 => lc0 ++ catLoad fs dir f s c) ?_ ?_ cats (by simpa using hnd)
    C hC dm lc hv
  · intro dm0 c lc0 hv0
    dsimp only at hv0 ⊢
    by_cases hex : fs.pathExists (dir ++ [catDirName c])
    · rw [if_pos hex]
      obtain ⟨fd, sd, hfd, hsd, _⟩ := bview_some_elim hv0
      rw [loadFiles_fu _ hv0]
      have : catLoad fs dir f s c = fileUnits f s c (fs.files (dir ++ [catDirName c])) := by
        unfold catLoad
        rw [if_pos hex]
      rw [this]
      exact bview_setViewFU_self _ _ hfd hsd
    · rw [if_neg hex]
      have : catLoad fs dir f s c = [] := by
        unfold catLoad
        rw [if_neg hex]
      rw [this, List.append_nil]
      exact hv0
  · intro dm0 c x hne
    dsimp only at hne ⊢
    by_cases hex : fs.pathExists (dir ++ [catDirName c])
    · rw [if_pos hex]
      exact loadFiles_bview_frame _ (Or.inr (Or.inr (Ne.symm hne))) dm0
    · rw [if_neg hex]

theorem loadCats_bview_frame (fs : FS) (dir : List String) (f s : String)
    (cats : List String) {f' s' c' : String} (hne : f' ≠ f ∨ s' ≠ s) (dm : DM) :
    bview (loadCats fs dir f s cats dm).faction_units f' s' c' =
      bview dm.faction_units f' s' c' := by
  refine foldl_pres
    (fun x => bview x.faction_units f' s' c' = bview dm.faction_units f' s' c')
    _ cats ?_ dm rfl
  intro x cat _ hx
  by_cases hex : fs.pathExists (dir ++ [catDirName cat])
  · simp only [if_pos hex]
    rw [loadFiles_bview_frame _ (hne.imp id Or.inl) x]
    exact hx
  · simp only [if_neg hex]
    exact hx

theorem loadCats_getA_ne (fs : FS) (dir : List String) (f s : String)
    (cats : List String) {f' : String} (hne : f' ≠ f) (dm : DM) :
    getA (loadCats fs dir f s cats dm).faction_units f' =
      getA dm.faction_units f' := by
  refine foldl_pres
    (fun x => getA x.faction_units f' = getA dm.faction_units f')
    _ cats ?_ dm rfl
  intro x cat _ hx
  by_cases hex : fs.pathExists (dir ++ [catDirName cat])
  · simp only [if_pos hex]
    rw [loadFiles_getA_ne _ _ _ hne x]
    exact hx
  · simp only [if_neg hex]
    exact hx

theorem extendAll_view (f s : String) (base : List (String × List UnitData))
    (hnd : (base.map Prod.fst).Nodup) {C : String} {b : List UnitData}
    (hb : (C, b) ∈ base) {dm : DM} {lc : List UnitData}
    (hv : bview dm.faction_units f s C = some lc) :
    bview (extendAll f s base dm).faction_units f s C = some (lc ++ b) := by
  have := fold_view_gen f s Prod.fst
    (fun dm0 (p : String × List UnitData) =>
      { dm0 with faction_units := modViewFU dm0.faction_units f s p.1 (fun l => l ++ p.2) })
    (fun p lc0 => lc0 ++ p.2) ?_ ?_ base hnd (C, b) hb dm lc hv
  · exact this
  · intro dm0 p lc0 hv0
    dsimp only at hv0 ⊢
    exact bview_modViewFU_self _ hv0
  · intro dm0 p x hne
    dsimp only at hne ⊢
    exact bview_modViewFU_frame _ _ (Or.inr (Or.inr (Ne.symm hne)))

theorem extendAll_bview_frame (f s : String) (base : List (String × List UnitData))
    {f' s' c' : String} (hne : f' ≠ f ∨ s' ≠ s) (dm : DM) :
    bview (extendAll f s base dm).faction_units f' s' c' =
      bview dm.faction_units f' s' c' := by
  refine foldl_pres
    (fun x => bview x.faction_units f' s' c' = bview dm.faction_units f' s' c')
    _ base ?_ dm rfl
  intro x p _ hx
  rw [bview_modViewFU_frame _ _ (hne.imp id Or.inl)]
  exact hx

theorem extendAll_getA_ne (f s : String) (base : List (String × List UnitData))
    {f' : String} (hne : f' ≠ f) (dm : DM) :
    getA (extendAll f s base dm).faction_units f' = getA dm.faction_units f' := by
  refine foldl_pres
    (fun x => getA x.faction_units f' = getA dm.faction_units f')
    _ base ?_ dm rfl
  intro x p _ hx
  rw [getA_modViewFU_ne _ _ _ _ hne]
  exact hx

theorem dedupSortAll_view (f s : String) (cats : List String) (hnd : cats.Nodup)
    {C : String} (hC : C ∈ cats) {dm : DM} {lc : List UnitData}
    (hv : bview dm.faction_units f s C = some lc) :
    bview (dedupSortAll f s cats dm).faction_units f s C = some (sortDedup lc) := by
  have := fold_view_gen f s (fun c => c)
    (fun dm0 c =>
      { dm0 with faction_units := modViewFU dm0.faction_units f s c sortDedup })
    (fun _ lc0 => sortDedup lc0) ?_ ?_ cats (by simpa using hnd) C hC dm lc hv
  · exact this
  · intro dm0 c lc0 hv0
    dsimp only at hv0 ⊢
    exact bview_modViewFU_self _ hv0
  · intro dm0 c x hne
    dsimp only at hne ⊢
    exact bview_modViewFU_frame _ _ (Or.inr (Or.inr (Ne.symm hne)))

theorem dedupSortAll_bview_frame (f s : String) (cats : List String)
    {f' s' c' : String} (hne : f' ≠ f ∨ s' ≠ s) (dm : DM) :
    bview (dedupSortAll f s cats dm).faction_units f' s' c' =
      bview dm.faction_units f' s' c' := by
  refine foldl_pres
    (fun x => bview x.faction_units f' s' c' = bview dm.faction_units f' s' c')
    _ cats ?_ dm rfl
  intro x c _ hx
  rw [bview_modViewFU_frame _ _ (hne.imp id Or.inl)]
  exact hx

theorem dedupSortAll_getA_ne (f s : String) (cats : List String)
    {f' : String} (hne : f' ≠ f) (dm : DM) :
    getA (dedupSortAll f s cats dm).faction_units f' = getA dm.faction_units f' := by
  refine foldl_pres
    (fun x => getA x.faction_units f' = getA dm.faction_units f')
    _ cats ?_ dm rfl
  intro x c _ hx
  rw [getA_modViewFU_ne _ _ _ _ hne]
  exact hx

theorem lcu_bview_frame (fs : FS) (dir : List String) (f s : String)
    {f' s' c' : String} (hne : f' ≠ f ∨ s' ≠ s) (dm : DM) :
    bview (load_category_units fs dir f s dm).faction_units f' s' c' =
      bview dm.faction_units f' s' c' :=
  loadCats_bview_frame fs dir f s UNIT_CATEGORIES hne dm

theorem lcu_getA_ne (fs : FS) (dir : List String) (f s : String)
    {f' : String} (hne : f' ≠ f) (dm : DM) :
    getA (load_category_units fs dir f s dm).faction_units f' =
      getA dm.faction_units f' :=
  loadCats_getA_ne fs dir f s UNIT_CATEGORIES hne dm

/-! ### initTemp, the temp-subfaction phase -/

theorem setViewsNil_fold_view (f s : String) (cats : List String) :
    ∀ (fu : FU) (fd : List (String × List (String × List UnitData)))
      (sd : List (String × List UnitData)),
      getA fu f = some fd → getA fd s = some sd →
      ∀ C ∈ cats,
        bview (cats.foldl (fun fu0 c => setViewFU fu0 f s c []) fu) f s C = some [] := by
  induction cats with
  | nil => intro fu fd sd _ _ C hC; exact absurd hC (List.not_mem_nil C)
  | cons c0 rest ih =>
    intro fu fd sd hfd hsd C hC
    show bview (rest.foldl (fun fu0 c => setViewFU fu0 f s c []) (setViewFU fu f s c0 []))
        f s C = some []
    have hfd1 : getA (setViewFU fu f s c0 []) f =
        some (modifyA fd s (fun sd0 => setA sd0 c0 [])) := getA_modifyA_self _ hfd
    have hsd1 : getA (modifyA fd s (fun sd0 => setA sd0 c0 [])) s =
        some (setA sd c0 []) := getA_modifyA_self _ hsd
    by_cases hr : C ∈ rest
    · exact ih _ _ _ hfd1 hsd1 C hr
    · have hc0 : C = c0 := by
        rcases List.mem_cons.mp hC with h | h
        · exact h
        · exact absurd h hr
      subst hc0
      have h1 : bview (setViewFU fu f s C []) f s C = some [] :=
        bview_setViewFU_self _ _ hfd hsd
      refine foldl_pres (fun x => bview x f s C = some [])
        (fun fu0 c => setViewFU fu0 f s c []) rest ?_ _ h1
      intro x c2 hc2 hx
      rw [bview_setViewFU_frame x _ (Or.inr (Or.inr ?_))]
      · exact hx
      · intro he
        exact hr (he ▸ hc2)

theorem initTemp_view {F : String} {fu : FU}
    {fd : List (String × List (String × List UnitData))} (hfd : getA fu F = some fd) :
    ∀ C ∈ UNIT_CATEGORIES, bview (initTemp F fu) F tempSub C = some [] := by
  intro C hC
  unfold initTemp
  exact setViewsNil_fold_view F tempSub UNIT_CATEGORIES _ _ _
    (getA_modifyA_self _ hfd) (getA_setA_self fd tempSub []) C hC

theorem initTemp_bview_frame (F : String) (fu : FU) {f' s' : String} (c' : String)
    (hne : f' ≠ F ∨ s' ≠ tempSub) :
    bview (initTemp F fu) f' s' c' = bview fu f' s' c' := by
  unfold initTemp
  have h0 : bview (modifyA fu F (fun fd => setA fd tempSub [])) f' s' c' =
      bview fu f' s' c' := by
    unfold bview
    by_cases hf : f' = F
    · subst hf
      cases hfd : getA fu f' with
      | none => rw [getA_modifyA_none _ hfd]
      | some fd =>
        rw [getA_modifyA_self _ hfd]
        simp only [Option.some_bind']
        rcases hne with h | h
        · exact absurd rfl h
        · rw [getA_setA_ne fd _ h]
    · rw [getA_modifyA_ne fu _ hf]
  refine foldl_pres (fun x => bview x f' s' c' = bview fu f' s' c')
    (fun fu0 c => setViewFU fu0 F tempSub c []) UNIT_CATEGORIES ?_ _ h0
  intro x c2 _ hx
  rw [bview_setViewFU_frame x _ (hne.imp id Or.inl)]
  exact hx

theorem initTemp_getA_ne (F : String) (fu : FU) {f' : String} (hne : f' ≠ F) :
    getA (initTemp F fu) f' = getA fu f' := by
  unfold initTemp
  refine foldl_pres (fun x => getA x f' = getA fu f')
    (fun fu0 c => setViewFU fu0 F tempSub c []) UNIT_CATEGORIES ?_ _
    (getA_modifyA_ne fu _ hne)
  intro x c2 _ hx
  rw [getA_setViewFU_ne x _ _ _ hne]
  exact hx

theorem eraseTemp_bview_frame (F : String) (fu : FU) {f' s' : String} (c' : String)
    (hne : f' ≠ F ∨ s' ≠ tempSub) :
    bview (modifyA fu F (fun fd => eraseA fd tempSub)) f' s' c' = bview fu f' s' c' := by
  unfold bview
  by_cases hf : f' = F
  · subst hf
    cases hfd : getA fu f' with
    | none => rw [getA_modifyA_none _ hfd]
    | some fd =>
      rw [getA_modifyA_self _ hfd]
      simp only [Option.some_bind']
      rcases hne with h | h
      · exact absurd rfl h
      · rw [getA_eraseA_ne fd h]
  · rw [getA_modifyA_ne fu _ hf]

/-! ### processSubfaction characterization -/

theorem psf_view_found {fs : FS} {F : String} {fdir : List String}
    {base : List (String × List UnitData)} {S C : String} {sdir : List String}
    {dm : DM} {b : List UnitData}
    (hdir : findDir fs (fdir ++ ["subfaction"]) (subfactionVariants S) = some sdir)
    (hnd : (base.map Prod.fst).Nodup) (hb : (C, b) ∈ base) (hC : C ∈ UNIT_CATEGORIES)
    (hv : bview dm.faction_units F S C = some []) :
    bview (processSubfaction fs F fdir base dm S).faction_units F S C =
      some (sortDedup (catLoad fs sdir F S C ++ b)) := by
  unfold processSubfaction
  rw [hdir]
  have hcatsnd : UNIT_CATEGORIES.Nodup := by decide
  have h1 : bview (load_category_units fs sdir F S dm).faction_units F S C =
      some ([] ++ catLoad fs sdir F S C) :=
    loadCats_view fs sdir F S UNIT_CATEGORIES hcatsnd hC hv
  have h2 := extendAll_view F S base hnd hb h1
  have h3 := dedupSortAll_view F S UNIT_CATEGORIES hcatsnd hC h2
  rw [h3, List.nil_append]

theorem psf_view_missing {fs : FS} {F : String} {fdir : List String}
    {base : List (String × List UnitData)} {S C : String} {dm : DM} {b : List UnitData}
    (hdir : findDir fs (fdir ++ ["subfaction"]) (subfactionVariants S) = none)
    (hnd : (base.map Prod.fst).Nodup) (hb : (C, b) ∈ base)
    (hv : bview dm.faction_units F S C = some []) :
    bview (processSubfaction fs F fdir base dm S).faction_units F S C = some b := by
  unfold processSubfaction
  rw [hdir]
  have h2 := extendAll_view F S base hnd hb hv
  rw [h2, List.nil_append]

theorem psf_bview_frame {fs : FS} {F : String} {fdir : List String}
    {base : List (String × List UnitData)} {dm : DM} {sname S c' : String}
    (hs : S ≠ sname) :
    bview (processSubfaction fs F fdir base dm sname).faction_units F S c' =
      bview dm.faction_units F S c' := by
  unfold processSubfaction
  cases hdir : findDir fs (fdir ++ ["subfaction"]) (subfactionVariants sname) with
  | some sdir =>
    dsimp only
    rw [dedupSortAll_bview_frame _ _ _ (Or.inr hs), extendAll_bview_frame _ _ _ (Or.inr hs)]
    exact loadCats_bview_frame fs sdir F sname UNIT_CATEGORIES (Or.inr hs) dm
  | none =>
    dsimp only
    exact extendAll_bview_frame _ _ _ (Or.inr hs) dm

theorem psf_getA_ne {fs : FS} {F : String} {fdir : List String}
    {base : List (String × List UnitData)} {dm : DM} {sname f' : String}
    (hf : f' ≠ F) :
    getA (processSubfaction fs F fdir base dm sname).faction_units f' =
      getA dm.faction_units f' := by
  unfold processSubfaction
  cases hdir : findDir fs (fdir ++ ["subfaction"]) (subfactionVariants sname) with
  | some sdir =>
    dsimp only
    rw [dedupSortAll_getA_ne _ _ _ hf, extendAll_getA_ne _ _ _ hf]
    exact loadCats_getA_ne fs sdir F sname UNIT_CATEGORIES hf dm
  | none =>
    dsimp only
    exact extendAll_getA_ne _ _ _ hf dm

/-! ### The fold over a faction's subfactions -/

theorem subsFold_view (fs : FS) (F : String) (fdir : List String)
    (base : List (String × List UnitData)) (S C : String)
    (hndb : (base.map Prod.fst).Nodup) {b : List UnitData}
    (hb : (C, b) ∈ base) (hC : C ∈ UNIT_CATEGORIES) :
    ∀ (subs : List String), subs.Nodup → S ∈ subs →
      ∀ dm : DM, bview dm.faction_units F S C = some [] →
        bview ((subs.foldl (processSubfaction fs F fdir base) dm)).faction_units F S C =
          some (match findDir fs (fdir ++ ["subfaction"]) (subfactionVariants S) with
            | none => b
            | some sdir => sortDedup (catLoad fs sdir F S C ++ b)) := by
  intro subs
  induction subs with
  | nil => intro _ hS; exact absurd hS (List.not_mem_nil S)
  | cons s0 rest ih =>
    intro hnd hS dm hv
    rw [List.nodup_cons] at hnd
    show bview ((rest.foldl (processSubfaction fs F fdir base)
        (processSubfaction fs F fdir base dm s0))).faction_units F S C = _
    rcases List.mem_cons.mp hS with h0 | hr
    · subst h0
      have h1 : bview (processSubfaction fs F fdir base dm S).faction_units F S C =
          some (match findDir fs (fdir ++ ["subfaction"]) (subfactionVariants S) with
            | none => b
            | some sdir => sortDedup (catLoad fs sdir F S C ++ b)) := by
        cases hdir : findDir fs (fdir ++ ["subfaction"]) (subfactionVariants S) with
        | some sdir => rw [psf_view_found hdir hndb hb hC hv]
        | none => rw [psf_view_missing hdir hndb hb hv]
      refine foldl_pres
        (fun x => bview x.faction_units F S C =
          some (match findDir fs (fdir ++ ["subfaction"]) (subfactionVariants S) with
            | none => b
            | some sdir => sortDedup (catLoad fs sdir F S C ++ b)))
        (processSubfaction fs F fdir base) rest ?_ _ h1
      intro x s2 hs2 hx
      rw [psf_bview_frame ?_]
      · exact hx
      · intro he
        exact hnd.1 (he ▸ hs2)
    · have hs0 : S ≠ s0 := by
        intro he
        exact hnd.1 (he ▸ hr)
      have hv1 : bview (processSubfaction fs F fdir base dm s0).faction_units F S C =
          some [] := by
        rw [psf_bview_frame hs0]
        exact hv
      exact ih hnd.2 hr _ hv1

/-! ### processFaction characterization -/

theorem bview_congr {fu1 fu2 : FU} {F : String}
    (h : getA fu1 F = getA fu2 F) (s c : String) :
    bview fu1 F s c = bview fu2 F s c := by
  unfold bview
  rw [h]

theorem baseOf_keys (fu : FU) (F : String) :
    (baseOf fu F).map Prod.fst = UNIT_CATEGORIES := by
  unfold baseOf
  rw [List.map_map]
  exact List.map_id UNIT_CATEGORIES

theorem pf_bucket {fs : FS} {dm : DM} {F : String} {subs : List String} {S C : String}
    (hfd : (getA dm.faction_units F).isSome)
    (hv : bview dm.faction_units F S C = some [])
    (hS : S ∈ subs) (hndsubs : subs.Nodup) (hStemp : S ≠ tempSub)
    (hC : C ∈ UNIT_CATEGORIES) :
    bview (processFaction fs dm (F, subs)).faction_units F S C =
      some (match findDir fs dataPath (factionVariants F) with
        | none => []
        | some fdir =>
          match findDir fs (fdir ++ ["subfaction"]) (subfactionVariants S) with
          | none => catLoad fs fdir F tempSub C
          | some sdir =>
            sortDedup (catLoad fs sdir F S C ++ catLoad fs fdir F tempSub C)) := by
  unfold processFaction
  dsimp only
  cases hdirF : findDir fs dataPath (factionVariants F) with
  | none => exact hv
  | some fdir =>
    dsimp only
    obtain ⟨fd, hfd'⟩ := Option.isSome_iff_exists.mp hfd
    have hcatsnd : UNIT_CATEGORIES.Nodup := by decide
    -- dm1 : the temp subfaction initialized
    have hvt1 : ∀ C' ∈ UNIT_CATEGORIES,
        bview (initTemp F dm.faction_units) F tempSub C' = some [] := initTemp_view hfd'
    have hv1 : bview (initTemp F dm.faction_units) F S C = some [] := by
      rw [initTemp_bview_frame F _ C (Or.inr hStemp)]
      exact hv
    -- dm2 : the base-faction categories loaded under the temp subfaction
    have hvt2 : ∀ C' ∈ UNIT_CATEGORIES,
        bview (load_category_units fs fdir F tempSub
            { dm with faction_units := initTemp F dm.faction_units }).faction_units
          F tempSub C' = some (catLoad fs fdir F tempSub C') := by
      intro C' hC'
      have := @loadCats_view fs fdir F tempSub UNIT_CATEGORIES hcatsnd C' hC'
        { dm with faction_units := initTemp F dm.faction_units } [] (hvt1 C' hC')
      rw [List.nil_append] at this
      exact this
    have hv2 : bview (load_category_units fs fdir F tempSub
        { dm with faction_units := initTemp F dm.faction_units }).faction_units
        F S C = some [] := by
      rw [lcu_bview_frame fs fdir F tempSub (Or.inr hStemp)]
      exact hv1
    -- the captured base-faction units
    have hbase : baseOf (load_category_units fs fdir F tempSub
        { dm with faction_units := initTemp F dm.faction_units }).faction_units F =
        UNIT_CATEGORIES.map (fun c => (c, catLoad fs fdir F tempSub c)) := by
      unfold baseOf
      refine List.map_congr_left ?_
      intro c hc
      unfold getBucket
      rw [hvt2 c hc]
      rfl
    -- dm3 : temp subfaction deleted
    have hv3 : bview (modifyA (load_category_units fs fdir F tempSub
        { dm with faction_units := initTemp F dm.faction_units }).faction_units
          F (fun fd0 => eraseA fd0 tempSub)) F S C = some [] := by
      rw [eraseTemp_bview_frame F _ C (Or.inr hStemp)]
      exact hv2
    have hndb : ((baseOf (load_category_units fs fdir F tempSub
        { dm with faction_units := initTemp F dm.faction_units }).faction_units F).map
          Prod.fst).Nodup := by
      rw [baseOf_keys]
      exact hcatsnd
    have hb : (C, catLoad fs fdir F tempSub C) ∈
        baseOf (load_category_units fs fdir F tempSub
          { dm with faction_units := initTemp F dm.faction_units }).faction_units F := by
      rw [hbase]
      exact List.mem_map.mpr ⟨C, hC, rfl⟩
    exact subsFold_view fs F fdir _ S C hndb hb hC subs hndsubs hS _ hv3

theorem pf_getA_ne {fs : FS} {dm : DM} {entry : String × List String} {f' : String}
    (hf : f' ≠ entry.1) :
    getA (processFaction fs dm entry).faction_units f' = getA dm.faction_units f' := by
  unfold processFaction
  cases hdirF : findDir fs dataPath (factionVariants entry.1) with
  | none => rfl
  | some fdir =>
    dsimp only
    have h3 : getA (modifyA (load_category_units fs fdir entry.1 tempSub
        { dm with faction_units := initTemp entry.1 dm.faction_units }).faction_units
          entry.1 (fun fd0 => eraseA fd0 tempSub)) f' = getA dm.faction_units f' := by
      rw [getA_modifyA_ne _ _ hf]
      rw [lcu_getA_ne fs fdir entry.1 tempSub hf]
      exact initTemp_getA_ne entry.1 _ hf
    refine foldl_pres (fun x => getA x.faction_units f' = getA dm.faction_units f')
      (processSubfaction fs entry.1 fdir _) entry.2 ?_ _ ?_
    · intro x s2 _ hx
      rw [psf_getA_ne hf]
      exact hx
    · exact h3

/-! ### The fold over the faction hierarchy, and the master bucket theorem -/

theorem foldFH_view (fs : FS) :
    ∀ (l : List (String × List String)), (l.map Prod.fst).Nodup →
      ∀ {F : String} {subs : List String} {S C : String},
        (F, subs) ∈ l → S ∈ subs → subs.Nodup → S ≠ tempSub → C ∈ UNIT_CATEGORIES →
        ∀ dm : DM, (getA dm.faction_units F).isSome →
          bview dm.faction_units F S C = some [] →
          bview ((l.foldl (processFaction fs) dm)).faction_units F S C =
            some (match findDir fs dataPath (factionVariants F) with
              | none => []
              | some fdir =>
                match findDir fs (fdir ++ ["subfaction"]) (subfactionVariants S) with
                | none => catLoad fs fdir F tempSub C
                | some sdir =>
                  sortDedup (catLoad fs sdir F S C ++ catLoad fs fdir F tempSub C)) := by
  intro l
  induction l with
  | nil => intro _ F subs S C hmem; exact absurd hmem (List.not_mem_nil _)
  | cons e0 rest ih =>
    intro hnd F subs S C hmem hS hndsubs hStemp hC dm hfd hv
    simp only [List.map_cons, List.nodup_cons] at hnd
    show bview ((rest.foldl (processFaction fs) (processFaction fs dm e0))).faction_units
        F S C = _
    rcases List.mem_cons.mp hmem with h0 | hr
    · have he0 : e0 = (F, subs) := h0.symm
      subst he0
      have h1 := @pf_bucket fs dm F subs S C hfd hv hS hndsubs hStemp hC
      refine foldl_pres
        (fun x => bview x.faction_units F S C =
          some (match findDir fs dataPath (factionVariants F) with
            | none => []
            | some fdir =>
              match findDir fs (fdir ++ ["subfaction"]) (subfactionVariants S) with
              | none => catLoad fs fdir F tempSub C
              | some sdir =>
                sortDedup (catLoad fs sdir F S C ++ catLoad fs fdir F tempSub C)))
        (processFaction fs) rest ?_ _ h1
      intro x e2 he2 hx
      have hne : F ≠ e2.1 := by
        intro he
        exact hnd.1 (he ▸ List.mem_map.mpr ⟨e2, he2, rfl⟩)
      rw [bview_congr (pf_getA_ne hne) S C]
      exact hx
    · have hne : F ≠ e0.1 := by
        intro he
        exact hnd.1 (he ▸ List.mem_map.mpr ⟨(F, subs), hr, rfl⟩)
      have hfd1 : (getA (processFaction fs dm e0).faction_units F).isSome := by
        rw [pf_getA_ne hne]
        exact hfd
      have hv1 : bview (processFaction fs dm e0).faction_units F S C = some [] := by
        rw [bview_congr (pf_getA_ne hne) S C]
        exact hv
      exact ih hnd.2 hr hS hndsubs hStemp hC _ hfd1 hv1

theorem getA_map_self {γ : Type} (X : String → γ) :
    ∀ (l : List String) (S : String), S ∈ l →
      getA (l.map (fun s => (s, X s))) S = some (X S) := by
  intro l
  induction l with
  | nil => intro S hS; exact absurd hS (List.not_mem_nil S)
  | cons s0 rest ih =>
    intro S hS
    by_cases h : s0 = S
    · subst h
      simp [getA]
    · rcases List.mem_cons.mp hS with he | hr
      · exact absurd he.symm h
      · simp only [List.map_cons, getA, h, if_false]
        exact ih S hr

theorem getA_entries_mem {β γ : Type} (g : String × β → γ) :
    ∀ (l : List (String × β)), (l.map Prod.fst).Nodup →
      ∀ (F : String) (b : β), (F, b) ∈ l →
        getA (l.map (fun e => (e.1, g e))) F = some (g (F, b)) := by
  intro l
  induction l with
  | nil => intro _ F b hmem; exact absurd hmem (List.not_mem_nil _)
  | cons e0 rest ih =>
    intro hnd F b hmem
    simp only [List.map_cons, List.nodup_cons] at hnd
    rcases List.mem_cons.mp hmem with h0 | hr
    · have he0 : e0 = (F, b) := h0.symm
      subst he0
      simp [getA]
    · have hne : e0.1 ≠ F := by
        intro he
        exact hnd.1 (he ▸ List.mem_map.mpr ⟨(F, b), hr, rfl⟩)
      simp only [List.map_cons, getA, hne, if_false]
      exact ih hnd.2 F b hr

theorem initFU_getA {F : String} {subs : List String}
    (hF : (F, subs) ∈ FACTION_HIERARCHY) :
    getA initFactionUnits F =
      some (subs.map (fun s =>
        (s, UNIT_CATEGORIES.map (fun c => (c, ([] : List UnitData)))))) := by
  have hnd : (FACTION_HIERARCHY.map Prod.fst).Nodup := by decide
  exact getA_entries_mem
    (fun e => e.2.map (fun s =>
      (s, UNIT_CATEGORIES.map (fun c => (c, ([] : List UnitData))))))
    FACTION_HIERARCHY hnd F subs hF

theorem initFU_bview {F : String} {subs : List String} {S C : String}
    (hF : (F, subs) ∈ FACTION_HIERARCHY) (hS : S ∈ subs) (hC : C ∈ UNIT_CATEGORIES) :
    bview initFactionUnits F S C = some [] := by
  unfold bview
  rw [initFU_getA hF]
  simp only [Option.some_bind']
  rw [getA_map_self _ subs S hS]
  simp only [Option.some_bind']
  exact getA_map_self (fun _ => ([] : List UnitData)) UNIT_CATEGORIES C hC

/-- The DataManager state right before _load_units_from_directory runs:
empty units and index, the initialized faction structure. -/
def dmStart : DM :=
  { units := [], search_index := [], faction_units := initFactionUnits }

theorem load_data_eq_root (fs : FS) (hroot : fs.pathExists dataPath = true) :
    load_data fs = build_search_index (load_units_from_directory fs dmStart) := by
  unfold load_data
  rw [if_pos hroot]
  rfl

/-- The master characterization: the final content of the
(F, S, C) bucket after loading, for every declared faction F, declared
subfaction S of F and category C. -/
theorem load_bucket (fs : FS) (hroot : fs.pathExists dataPath = true)
    {F : String} {subs : List String} {S C : String}
    (hF : (F, subs) ∈ FACTION_HIERARCHY) (hS : S ∈ subs) (hC : C ∈ UNIT_CATEGORIES) :
    getBucket (load_data fs).faction_units F S C =
      (match findDir fs dataPath (factionVariants F) with
        | none => []
        | some fdir =>
          match findDir fs (fdir ++ ["subfaction"]) (subfactionVariants S) with
          | none => catLoad fs fdir F tempSub C
          | some sdir =>
            sortDedup (catLoad fs sdir F S C ++ catLoad fs fdir F tempSub C)) := by
  have hndFH : (FACTION_HIERARCHY.map Prod.fst).Nodup := by decide
  have hndsubs : subs.Nodup := by
    have hall : ∀ e ∈ FACTION_HIERARCHY, (e.2 : List String).Nodup := by decide
    exact hall (F, subs) hF
  have hStemp : S ≠ tempSub := by
    have hall : ∀ e ∈ FACTION_HIERARCHY, ∀ s ∈ e.2, s ≠ tempSub := by decide
    exact hall (F, subs) hF S hS
  have hinit1 : (getA dmStart.faction_units F).isSome = true := by
    show (getA initFactionUnits F).isSome = true
    rw [initFU_getA hF]
    rfl
  have hinit2 : bview dmStart.faction_units F S C = some [] :=
    initFU_bview hF hS hC
  have h1 := foldFH_view fs FACTION_HIERARCHY hndFH hF hS hndsubs hStemp hC
    dmStart hinit1 hinit2
  have h2 : getBucket (load_data fs).faction_units F S C =
      getBucket ((FACTION_HIERARCHY.foldl (processFaction fs) dmStart)).faction_units
        F S C := by
    rw [load_data_eq_root fs hroot]
    rfl
  rw [h2]
  unfold getBucket
  rw [h1]
  rfl

/-! ### Properties of the dedup pass -/

theorem mem_dedupGo : ∀ (seen : List String) (l : List UnitData) (u : UnitData),
    u ∈ dedupGo seen l → u ∈ l := by
  intro seen l
  induction l generalizing seen with
  | nil => intro u h; exact absurd h (List.not_mem_nil u)
  | cons v vs ih =>
    intro u h
    unfold dedupGo at h
    by_cases hs : v.name ∈ seen
    · rw [if_pos hs] at h
      exact List.mem_cons_of_mem v (ih seen u h)
    · rw [if_neg hs] at h
      rcases List.mem_cons.mp h with h | h
      · exact List.mem_cons.mpr (Or.inl h)
      · exact List.mem_cons_of_mem v (ih _ u h)

theorem dedupGo_exists_name : ∀ (seen : List String) (l : List UnitData) (u : UnitData),
    u ∈ l → u.name ∉ seen → ∃ v ∈ dedupGo seen l, v.name = u.name := by
  intro seen l
  induction l generalizing seen with
  | nil => intro u h; exact absurd h (List.not_mem_nil u)
  | cons v vs ih =>
    intro u hu hseen
    unfold dedupGo
    by_cases hs : v.name ∈ seen
    · rw [if_pos hs]
      rcases List.mem_cons.mp hu with h | h
      · exact absurd (h ▸ hs) hseen
      · exact ih seen u h hseen
    · rw [if_neg hs]
      by_cases hvu : v.name = u.name
      · exact ⟨v, List.mem_cons_self _ _, hvu⟩
      · rcases List.mem_cons.mp hu with h | h
        · exact absurd (show v.name = u.name by rw [h]) hvu
        · obtain ⟨w, hw, hwn⟩ := ih (v.name :: seen) u h (by
            intro hmem
            rcases List.mem_cons.mp hmem with hh | hh
            · exact hvu hh.symm
            · exact hseen hh)
          exact ⟨w, List.mem_cons_of_mem v hw, hwn⟩

theorem filter_dedupGo_seen (n : String) :
    ∀ (seen : List String) (l : List UnitData), n ∈ seen →
      (dedupGo seen l).filter (fun u => u.name == n) = [] := by
  intro seen l
  induction l generalizing seen with
  | nil => intro _; rfl
  | cons v vs ih =>
    intro hn
    unfold dedupGo
    by_cases hs : v.name ∈ seen
    · rw [if_pos hs]
      exact ih seen hn
    · rw [if_neg hs]
      rw [List.filter_cons]
      have hvn : (v.name == n) = false := by
        rw [beq_eq_false_iff_ne]
        intro he
        exact hs (he ▸ hn)
      rw [hvn]
      simp only [Bool.false_eq_true, if_false]
      exact ih (v.name :: seen) (List.mem_cons_of_mem _ hn)

theorem filter_dedupGo (n : String) :
    ∀ (seen : List String) (l : List UnitData), n ∉ seen →
      (dedupGo seen l).filter (fun u => u.name == n) =
        (l.find? (fun u => u.name == n)).toList := by
  intro seen l
  induction l generalizing seen with
  | nil => intro _; rfl
  | cons v vs ih =>
    intro hn
    unfold dedupGo
    by_cases hvn : v.name = n
    · subst hvn
      rw [if_neg hn, List.filter_cons, List.find?_cons]
      simp only [beq_self_eq_true, if_true, cond_true]
      rw [filter_dedupGo_seen v.name (v.name :: seen) vs (List.mem_cons_self _ _)]
      rfl
    · have hbeq : (v.name == n) = false := by
        rw [beq_eq_false_iff_ne]
        exact hvn
      by_cases hs : v.name ∈ seen
      · rw [if_pos hs, List.find?_cons, hbeq]
        show (dedupGo seen vs).filter (fun u => u.name == n) = (vs.find? _).toList
        exact ih seen hn
      · rw [if_neg hs, List.filter_cons, hbeq, List.find?_cons, hbeq]
        simp only [Bool.false_eq_true, if_false]
        show (dedupGo (v.name :: seen) vs).filter (fun u => u.name == n) =
          (vs.find? _).toList
        exact ih (v.name :: seen) (by
          intro hmem
          rcases List.mem_cons.mp hmem with hh | hh
          · exact hvn hh.symm
          · exact hn hh)

theorem dedupGo_names_nodup : ∀ (seen : List String) (l : List UnitData),
    ((dedupGo seen l).map (fun u => u.name)).Nodup ∧
      ∀ u ∈ dedupGo seen l, u.name ∉ seen := by
  intro seen l
  induction l generalizing seen with
  | nil => exact ⟨List.nodup_nil, fun u h => absurd h (List.not_mem_nil u)⟩
  | cons v vs ih =>
    unfold dedupGo
    by_cases hs : v.name ∈ seen
    · rw [if_pos hs]
      exact ih seen
    · rw [if_neg hs]
      obtain ⟨hnd, hnotin⟩ := ih (v.name :: seen)
      constructor
      · rw [List.map_cons, List.nodup_cons]
        refine ⟨?_, hnd⟩
        intro hmem
        obtain ⟨w, hw, hwn⟩ := List.mem_map.mp hmem
        exact hnotin w hw (hwn ▸ List.mem_cons_self _ _)
      · intro u hu
        rcases List.mem_cons.mp hu with h | h
        · exact h ▸ hs
        · intro hu2
          exact hnotin u h (List.mem_cons_of_mem _ hu2)

/-! ### The embedded ordering and the insertion sort -/

theorem listLeB_total : ∀ a b : List Char, listLeB a b = true ∨ listLeB b a = true := by
  intro a
  induction a with
  | nil => intro b; exact Or.inl rfl
  | cons x xs ih =>
    intro b
    cases b with
    | nil => exact Or.inr rfl
    | cons y ys =>
      unfold listLeB charLtB
      by_cases h1 : x.toNat < y.toNat
      · left
        rw [if_pos (by exact decide_eq_true h1)]
      · by_cases h2 : y.toNat < x.toNat
        · right
          rw [if_pos (by exact decide_eq_true h2)]
        · have d1 : (decide (x.toNat < y.toNat)) = false := decide_eq_false h1
          have d2 : (decide (y.toNat < x.toNat)) = false := decide_eq_false h2
          rw [d1, d2]
          simp only [Bool.false_eq_true, if_false]
          rcases ih ys with h | h
          · exact Or.inl h
          · exact Or.inr h

theorem listLeB_trans : ∀ a b c : List Char,
    listLeB a b = true → listLeB b c = true → listLeB a c = true := by
  intro a
  induction a with
  | nil => intro b c _ _; rfl
  | cons x xs ih =>
    intro b c hab hbc
    cases b with
    | nil =>
      exfalso
      exact absurd hab (by unfold listLeB; simp)
    | cons y ys =>
      cases c with
      | nil =>
        exfalso
        exact absurd hbc (by unfold listLeB; simp)
      | cons z zs =>
        unfold listLeB charLtB at hab hbc ⊢
        by_cases h1 : x.toNat < y.toNat
        · by_cases h2 : y.toNat < z.toNat
          · rw [if_pos (decide_eq_true (Nat.lt_trans h1 h2))]
          · rw [decide_eq_false h2] at hbc
            simp only [Bool.false_eq_true, if_false] at hbc
            by_cases h3 : z.toNat < y.toNat
            · rw [decide_eq_true h3] at hbc
              simp at hbc
            · have hyz : y.toNat = z.toNat := by omega
              rw [if_pos (decide_eq_true (show x.toNat < z.toNat by omega))]
        · rw [decide_eq_false h1] at hab
          simp only [Bool.false_eq_true, if_false] at hab
          by_cases h1' : y.toNat < x.toNat
          · rw [decide_eq_true h1'] at hab
            simp at hab
          · rw [decide_eq_false h1'] at hab
            simp only [Bool.false_eq_true, if_false] at hab
            have hxy : x.toNat = y.toNat := by omega
            by_cases h2 : y.toNat < z.toNat
            · rw [if_pos (decide_eq_true (show x.toNat < z.toNat by omega))]
            · rw [decide_eq_false h2] at hbc
              simp only [Bool.false_eq_true, if_false] at hbc
              by_cases h3 : z.toNat < y.toNat
              · rw [decide_eq_true h3] at hbc
                simp at hbc
              · rw [decide_eq_false h3] at hbc
                simp only [Bool.false_eq_true, if_false] at hbc
                rw [decide_eq_false (show ¬ x.toNat < z.toNat by omega),
                  decide_eq_false (show ¬ z.toNat < x.toNat by omega)]
                simp only [Bool.false_eq_true, if_false]
                exact ih ys zs hab hbc

theorem strLeB_total (a b : String) : strLeB a b = true ∨ strLeB b a = true :=
  listLeB_total a.data b.data

theorem strLeB_trans {a b c : String} (h1 : strLeB a b = true) (h2 : strLeB b c = true) :
    strLeB a c = true :=
  listLeB_trans a.data b.data c.data h1 h2

theorem insertSorted_perm {α : Type} (key : α → String) (u : α) :
    ∀ l : List α, (insertSorted key u l).Perm (u :: l) := by
  intro l
  induction l with
  | nil => exact List.Perm.refl _
  | cons v vs ih =>
    unfold insertSorted
    by_cases h : strLeB (key v) (key u) = true
    · rw [if_pos h]
      exact (List.Perm.cons v ih).trans (List.Perm.swap u v vs)
    · rw [if_neg h]

theorem sortByKey_perm {α : Type} (key : α → String) :
    ∀ (l acc : List α), (l.foldl (fun a u => insertSorted key u a) acc).Perm (l ++ acc) := by
  intro l
  induction l with
  | nil => intro acc; exact List.Perm.refl _
  | cons u rest ih =>
    intro acc
    show (rest.foldl (fun a u => insertSorted key u a) (insertSorted key u acc)).Perm _
    refine (ih (insertSorted key u acc)).trans ?_
    refine (List.Perm.append_left rest (insertSorted_perm key u acc)).trans ?_
    exact List.perm_middle

theorem sortByKey_perm_self {α : Type} (key : α → String) (l : List α) :
    (sortByKey key l).Perm l := by
  have := sortByKey_perm key l []
  rw [List.append_nil] at this
  exact this

theorem insertSorted_pairwise {α : Type} (key : α → String) (u : α) :
    ∀ {l : List α},
      l.Pairwise (fun a b => strLeB (key a) (key b) = true) →
      (insertSorted key u l).Pairwise (fun a b => strLeB (key a) (key b) = true) := by
  intro l
  induction l with
  | nil => intro _; exact List.pairwise_singleton _ u
  | cons v vs ih =>
    intro hp
    rw [List.pairwise_cons] at hp
    unfold insertSorted
    by_cases h : strLeB (key v) (key u) = true
    · rw [if_pos h]
      rw [List.pairwise_cons]
      constructor
      · intro x hx
        rcases List.mem_cons.mp ((insertSorted_perm key u vs).mem_iff.mp hx) with hx | hx
        · rw [hx]
          exact h
        · exact hp.1 x hx
      · exact ih hp.2
    · rw [if_neg h]
      have hu : strLeB (key u) (key v) = true := by
        rcases strLeB_total (key u) (key v) with hh | hh
        · exact hh
        · exact absurd hh h
      rw [List.pairwise_cons]
      constructor
      · intro x hx
        rcases List.mem_cons.mp hx with hx | hx
        · exact hx ▸ hu
        · exact strLeB_trans hu (hp.1 x hx)
      · exact List.pairwise_cons.mpr hp

theorem sortByKey_pairwise {α : Type} (key : α → String) (l : List α) :
    (sortByKey key l).Pairwise (fun a b => strLeB (key a) (key b) = true) := by
  unfold sortByKey
  have hgen : ∀ (l acc : List α),
      acc.Pairwise (fun a b => strLeB (key a) (key b) = true) →
      (l.foldl (fun a u => insertSorted key u a) acc).Pairwise
        (fun a b => strLeB (key a) (key b) = true) := by
    intro l
    induction l with
    | nil => intro acc h; exact h
    | cons u rest ih =>
      intro acc h
      exact ih _ (insertSorted_pairwise key u h)
  exact hgen l [] List.Pairwise.nil

/-! ### Consequences for sortDedup -/

theorem mem_sortDedup {l : List UnitData} {u : UnitData} :
    u ∈ sortDedup l ↔ u ∈ dedupByName l :=
  (sortByKey_perm_self (fun u => u.name) (dedupByName l)).mem_iff

theorem sortDedup_names_nodup (l : List UnitData) :
    ((sortDedup l).map (fun u => u.name)).Nodup := by
  have hperm := (sortByKey_perm_self (fun u => u.name) (dedupByName l)).map
    (fun u => u.name)
  exact (List.Perm.nodup_iff hperm).mpr (dedupGo_names_nodup [] l).1

theorem sortDedup_sorted (l : List UnitData) :
    (sortDedup l).Pairwise (fun a b => strLeB a.name b.name = true) :=
  sortByKey_pairwise (fun u => u.name) (dedupByName l)

theorem sortDedup_filter_name (l : List UnitData) (n : String) :
    (sortDedup l).filter (fun u => u.name == n) =
      (l.find? (fun u => u.name == n)).toList := by
  have hperm : ((sortDedup l).filter (fun u => u.name == n)).Perm
      ((dedupByName l).filter (fun u => u.name == n)) :=
    (sortByKey_perm_self (fun u => u.name) (dedupByName l)).filter _
  have h2 : (dedupByName l).filter (fun u => u.name == n) =
      (l.find? (fun u => u.name == n)).toList :=
    filter_dedupGo n [] l (List.not_mem_nil n)
  rw [h2] at hperm
  cases hf : l.find? (fun u => u.name == n) with
  | none =>
    rw [hf] at hperm
    exact List.Perm.eq_nil hperm
  | some u =>
    rw [hf] at hperm
    exact List.perm_singleton.mp hperm

/-! ### The substring test -/

theorem isPrefixB_iff : ∀ (n h : List Char), isPrefixB n h = true ↔ ∃ t, h = n ++ t := by
  intro n
  induction n with
  | nil =>
    intro h
    simp [isPrefixB]
  | cons a as ih =>
    intro h
    cases h with
    | nil =>
      simp [isPrefixB]
    | cons b bs =>
      unfold isPrefixB
      rw [Bool.and_eq_true]
      constructor
      · rintro ⟨hab, htail⟩
        obtain ⟨t, ht⟩ := (ih bs).mp htail
        refine ⟨t, ?_⟩
        have : a = b := by
          have := of_decide_eq_true hab
          exact this
        rw [List.cons_append, ← this, ht]
      · rintro ⟨t, ht⟩
        rw [List.cons_append] at ht
        injection ht with h1 h2
        constructor
        · exact decide_eq_true h1.symm
        · exact (ih bs).mpr ⟨t, h2⟩

theorem containsSub_iff : ∀ (h n : List Char),
    containsSub n h = true ↔ ∃ p1 p2, h = p1 ++ n ++ p2 := by
  intro h
  induction h with
  | nil =>
    intro n
    unfold containsSub
    rw [isPrefixB_iff]
    constructor
    · rintro ⟨t, ht⟩
      exact ⟨[], t, ht⟩
    · rintro ⟨p1, p2, hp⟩
      cases p1 with
      | nil => exact ⟨p2, hp⟩
      | cons x xs => simp at hp
  | cons b bs ih =>
    intro n
    unfold containsSub
    rw [Bool.or_eq_true, isPrefixB_iff, ih]
    constructor
    · rintro (⟨t, ht⟩ | ⟨p1, p2, hp⟩)
      · exact ⟨[], t, ht⟩
      · exact ⟨b :: p1, p2, by rw [hp]; rfl⟩
    · rintro ⟨p1, p2, hp⟩
      cases p1 with
      | nil => exact Or.inl ⟨p2, hp⟩
      | cons x xs =>
        right
        rw [List.cons_append, List.cons_append] at hp
        injection hp with h1 h2
        exact ⟨xs, p2, h2⟩

theorem strContains_iff (hay needle : String) :
    strContains hay needle = true ↔ ∃ p1 p2, hay.data = p1 ++ needle.data ++ p2 :=
  containsSub_iff hay.data needle.data

/-! ### Subfaction fields of loaded records -/

theorem fileUnits_subfaction (f s c : String) :
    ∀ (files : List JFile) (u : UnitData), u ∈ fileUnits f s c files →
      u.subfaction = s := by
  intro files
  induction files with
  | nil => intro u h; exact absurd h (List.not_mem_nil u)
  | cons file rest ih =>
    intro u h
    unfold fileUnits at h
    rw [List.flatMap_cons] at h
    rcases List.mem_append.mp h with h | h
    · unfold fileUnit at h
      cases hc : file.content with
      | none => rw [hc] at h; exact absurd h (List.not_mem_nil u)
      | some j =>
        rw [hc] at h
        rcases List.mem_cons.mp h with h | h
        · rw [h]; rfl
        · exact absurd h (List.not_mem_nil u)
    · exact ih u h

theorem catLoad_subfaction (fs : FS) (dir : List String) (f s c : String)
    (u : UnitData) (h : u ∈ catLoad fs dir f s c) : u.subfaction = s := by
  unfold catLoad at h
  by_cases hex : fs.pathExists (dir ++ [catDirName c])
  · rw [if_pos hex] at h
    exact fileUnits_subfaction f s c _ u h
  · rw [if_neg hex] at h
    exact absurd h (List.not_mem_nil u)

/-! ### Claim theorems for the catalog loader -/

/-- C1: for every declared faction F whose directory is found, every
declared subfaction S of F and every category C, the final bucket for
(F, S, C) contains, by unit name, every base-faction record loaded for C
directly under F's faction directory, whether or not S's own directory
exists. -/
theorem c1_base_faction_inheritance (fs : FS) (hroot : fs.pathExists dataPath = true)
    {F : String} {subs : List String} {S C : String} {fdir : List String}
    (hF : (F, subs) ∈ FACTION_HIERARCHY) (hS : S ∈ subs) (hC : C ∈ UNIT_CATEGORIES)
    (hfdir : findDir fs dataPath (factionVariants F) = some fdir) :
    ∀ u ∈ catLoad fs fdir F tempSub C,
      ∃ v ∈ getBucket (load_data fs).faction_units F S C, v.name = u.name := by
  intro u hu
  have h := load_bucket fs hroot hF hS hC
  rw [hfdir] at h
  dsimp only at h
  cases hsdir : findDir fs (fdir ++ ["subfaction"]) (subfactionVariants S) with
  | none =>
    rw [hsdir] at h
    dsimp only at h
    exact ⟨u, by rw [h]; exact hu, rfl⟩
  | some sdir =>
    rw [hsdir] at h
    dsimp only at h
    have humem : u ∈ catLoad fs sdir F S C ++ catLoad fs fdir F tempSub C :=
      List.mem_append_right _ hu
    obtain ⟨v, hv, hvn⟩ := dedupGo_exists_name [] _ u humem (List.not_mem_nil _)
    exact ⟨v, by rw [h]; exact mem_sortDedup.mpr hv, hvn⟩

/-- C2 (amended): for every declared faction whose directory is found and
every declared subfaction whose own directory is also found, the final
(faction, subfaction, category) bucket has pairwise-distinct unit names
and is sorted in ascending name order.  (The original claim, quantified
over all subfactions, fails when a subfaction directory is missing: that
branch of the loader extends the bucket with the base-faction units
without the dedup-and-sort pass.) -/
theorem c2_amended_buckets_unique_sorted (fs : FS)
    (hroot : fs.pathExists dataPath = true)
    {F : String} {subs : List String} {S C : String} {fdir sdir : List String}
    (hF : (F, subs) ∈ FACTION_HIERARCHY) (hS : S ∈ subs) (hC : C ∈ UNIT_CATEGORIES)
    (hfdir : findDir fs dataPath (factionVariants F) = some fdir)
    (hsdir : findDir fs (fdir ++ ["subfaction"]) (subfactionVariants S) = some sdir) :
    ((getBucket (load_data fs).faction_units F S C).map (fun u => u.name)).Nodup ∧
    (getBucket (load_data fs).faction_units F S C).Pairwise
      (fun a b => strLeB a.name b.name = true) := by
  have h := load_bucket fs hroot hF hS hC
  rw [hfdir] at h
  dsimp only at h
  rw [hsdir] at h
  dsimp only at h
  rw [h]
  exact ⟨sortDedup_names_nodup _, sortDedup_sorted _⟩

/-- C3: when the merged bucket (subfaction-specific records followed by the
inherited base-faction records) holds a unit name more than once, exactly
one record with that name survives in the final bucket, namely the first
occurrence in merged order. -/
theorem c3_dedup_first_occurrence (fs : FS) (hroot : fs.pathExists dataPath = true)
    {F : String} {subs : List String} {S C : String} {fdir sdir : List String}
    (hF : (F, subs) ∈ FACTION_HIERARCHY) (hS : S ∈ subs) (hC : C ∈ UNIT_CATEGORIES)
    (hfdir : findDir fs dataPath (factionVariants F) = some fdir)
    (hsdir : findDir fs (fdir ++ ["subfaction"]) (subfactionVariants S) = some sdir)
    (n : String)
    (hdup : 1 < ((catLoad fs sdir F S C ++ catLoad fs fdir F tempSub C).filter
        (fun u => u.name == n)).length) :
    ∃ u, (catLoad fs sdir F S C ++ catLoad fs fdir F tempSub C).find?
        (fun u => u.name == n) = some u ∧
      (getBucket (load_data fs).faction_units F S C).filter
        (fun v => v.name == n) = [u] := by
  have h := load_bucket fs hroot hF hS hC
  rw [hfdir] at h
  dsimp only at h
  rw [hsdir] at h
  dsimp only at h
  have hne : (catLoad fs sdir F S C ++ catLoad fs fdir F tempSub C).filter
      (fun u => u.name == n) ≠ [] := by
    intro he
    rw [he] at hdup
    simp at hdup
  obtain ⟨u, hu⟩ : ∃ u, (catLoad fs sdir F S C ++ catLoad fs fdir F tempSub C).find?
      (fun u => u.name == n) = some u := by
    cases hf : (catLoad fs sdir F S C ++ catLoad fs fdir F tempSub C).find?
        (fun u => u.name == n) with
    | some u => exact ⟨u, rfl⟩
    | none =>
      exfalso
      apply hne
      rw [List.filter_eq_nil_iff]
      intro x hx
      exact List.find?_eq_none.mp hf x hx
  refine ⟨u, hu, ?_⟩
  rw [h, sortDedup_filter_name, hu]
  rfl

/-- C10: every record loaded directly under a faction directory carries
the placeholder subfaction "_base_faction_"; every record of a final
bucket carries either the bucket's subfaction name or the placeholder;
search-index entries copy the subfaction field of their record unchanged;
and no declared subfaction is named "_base_faction_", so an inherited
base-faction record's subfaction field never equals the subfaction it is
listed under. -/
theorem c10_base_faction_placeholder (fs : FS)
    (hroot : fs.pathExists dataPath = true)
    {F : String} {subs : List String} {S C : String} {fdir : List String}
    (hF : (F, subs) ∈ FACTION_HIERARCHY) (hS : S ∈ subs) (hC : C ∈ UNIT_CATEGORIES)
    (hfdir : findDir fs dataPath (factionVariants F) = some fdir) :
    (∀ u ∈ catLoad fs fdir F tempSub C, u.subfaction = "_base_faction_") ∧
    (∀ u ∈ getBucket (load_data fs).faction_units F S C,
       u.subfaction = S ∨ u.subfaction = "_base_faction_") ∧
    (∀ it ∈ (load_data fs).search_index, it.subfaction = it.unit_data.subfaction) ∧
    S ≠ "_base_faction_" := by
  have h := load_bucket fs hroot hF hS hC
  rw [hfdir] at h
  dsimp only at h
  refine ⟨?_, ?_, ?_, ?_⟩
  · intro u hu
    exact catLoad_subfaction fs fdir F tempSub C u hu
  · intro u hu
    cases hsdir : findDir fs (fdir ++ ["subfaction"]) (subfactionVariants S) with
    | none =>
      rw [hsdir] at h
      dsimp only at h
      rw [h] at hu
      exact Or.inr (catLoad_subfaction fs fdir F tempSub C u hu)
    | some sdir =>
      rw [hsdir] at h
      dsimp only at h
      rw [h] at hu
      have hmerged := mem_dedupGo [] _ u (mem_sortDedup.mp hu)
      rcases List.mem_append.mp hmerged with hm | hm
      · exact Or.inl (catLoad_subfaction fs sdir F S C u hm)
      · exact Or.inr (catLoad_subfaction fs fdir F tempSub C u hm)
  · intro it hit
    rw [load_data_eq_root fs hroot] at hit
    have hit2 : it ∈ sortByKey (fun it0 : SearchItem => lowerStr it0.name)
        ((load_units_from_directory fs dmStart).units.map
          (fun p => mkSearchItem p.2)) := hit
    have hmem : it ∈ (load_units_from_directory fs dmStart).units.map
        (fun p => mkSearchItem p.2) :=
      (sortByKey_perm_self (fun it0 : SearchItem => lowerStr it0.name) _).mem_iff.mp hit2
    obtain ⟨p, _, hp⟩ := List.mem_map.mp hmem
    rw [← hp]
    rfl
  · have hall : ∀ e ∈ FACTION_HIERARCHY, ∀ s ∈ e.2, s ≠ "_base_faction_" := by decide
    exact hall (F, subs) hF S hS

/-- C8: a json file whose parse fails is skipped and the load continues:
loading a file list containing the failing file produces exactly the same
DataManager state as loading the list without it, and every parsable file
of the list still contributes its record to the bucket. -/
theorem c8_malformed_file_skipped (faction subfaction category : String)
    (pre post : List JFile) (bad : JFile) (dm : DM) (hbad : bad.content = none) :
    loadFiles faction subfaction category (pre ++ bad :: post) dm =
      loadFiles faction subfaction category (pre ++ post) dm ∧
    (∀ l, bview dm.faction_units faction subfaction category = some l →
      bview (loadFiles faction subfaction category
          (pre ++ bad :: post) dm).faction_units faction subfaction category =
        some (l ++ fileUnits faction subfaction category (pre ++ post))) := by
  have hskip : loadFiles faction subfaction category (pre ++ bad :: post) dm =
      loadFiles faction subfaction category (pre ++ post) dm := by
    unfold loadFiles
    rw [List.foldl_append, List.foldl_append, List.foldl_cons]
    have hid : loadFile faction subfaction category
        (pre.foldl (loadFile faction subfaction category) dm) bad =
        pre.foldl (loadFile faction subfaction category) dm := by
      unfold loadFile
      rw [hbad]
    rw [hid]
  refine ⟨hskip, ?_⟩
  intro l hv
  rw [hskip, loadFiles_fu _ hv]
  obtain ⟨fd, sd, hfd, hsd, _⟩ := bview_some_elim hv
  exact bview_setViewFU_self _ _ hfd hsd

/-- C4: for a non-empty query, search_units returns exactly the index
entries for which the lowercased query is a substring of the lowercased
name, faction, subfaction or category; the results keep the index order
(they form a sublist of the index), and the index itself is sorted
case-insensitively by name. -/
theorem c4_search_filters_index (fs : FS) (q : String) (hq : q ≠ "")
    (it : SearchItem) :
    (it ∈ search_units (load_data fs) q ↔
      it ∈ (load_data fs).search_index ∧
        ((∃ p1 p2, (lowerStr it.name).data = p1 ++ (lowerStr q).data ++ p2) ∨
         (∃ p1 p2, (lowerStr it.faction).data = p1 ++ (lowerStr q).data ++ p2) ∨
         (∃ p1 p2, (lowerStr it.subfaction).data = p1 ++ (lowerStr q).data ++ p2) ∨
         (∃ p1 p2, (lowerStr it.category).data = p1 ++ (lowerStr q).data ++ p2))) ∧
    (search_units (load_data fs) q).Sublist (load_data fs).search_index ∧
    (load_data fs).search_index.Pairwise
      (fun a b => strLeB (lowerStr a.name) (lowerStr b.name) = true) := by
  have hfilter : search_units (load_data fs) q =
      (load_data fs).search_index.filter (itemMatches (lowerStr q)) := by
    unfold search_units
    rw [if_neg hq]
  refine ⟨?_, ?_, ?_⟩
  · rw [hfilter, List.mem_filter]
    unfold itemMatches
    rw [Bool.or_eq_true, Bool.or_eq_true, Bool.or_eq_true,
      strContains_iff, strContains_iff, strContains_iff, strContains_iff]
    rw [or_assoc, or_assoc]
  · rw [hfilter]
    exact List.filter_sublist _
  · by_cases hroot : fs.pathExists dataPath = true
    · rw [load_data_eq_root fs hroot]
      exact sortByKey_pairwise (fun it0 : SearchItem => lowerStr it0.name) _
    · have hempty : load_data fs =
          { units := [], search_index := [], faction_units := [] } := by
        unfold load_data
        rw [if_neg hroot]
      rw [hempty]
      exact List.Pairwise.nil

/-! ### Concrete filesystems for the counterexample and the witnesses -/

/-- A unit file whose json object carries only unit_name. -/
def sampleJson (nm : String) : UnitJson :=
  { unit_name := some nm, infobox_data := none, icon_filename := none,
    icon_url := none, article_tables := none }

/-- The record such a file produces under the Soviet Union faction. -/
def unitOf (nm sub : String) : UnitData :=
  { name := nm, faction := "Soviet Union", subfaction := sub, category := "Infantry",
    infobox_data := [], icon_filename := "", icon_url := "", article_tables := [] }

/-- A data tree with the Soviet Union faction directory, no subfaction
directories, and two base Infantry files globbed in the order "b", "a". -/
def fsA : FS :=
  { pathExists := fun p =>
      decide (p = dataPath) || decide (p = dataPath ++ ["Soviet Union"]) ||
        decide (p = dataPath ++ ["Soviet Union", "Infantry"]),
    files := fun p =>
      if p = dataPath ++ ["Soviet Union", "Infantry"] then
        [{ stem := "b", content := some (sampleJson "b") },
         { stem := "a", content := some (sampleJson "a") }]
      else [] }

/-- A data tree with the Soviet Union faction directory, a base Infantry
Conscript, and a Russia subfaction directory with its own Conscript and a
Tesla Trooper. -/
def fsB : FS :=
  { pathExists := fun p =>
      decide (p = dataPath) || decide (p = dataPath ++ ["Soviet Union"]) ||
        decide (p = dataPath ++ ["Soviet Union", "Infantry"]) ||
        decide (p = dataPath ++ ["Soviet Union", "subfaction", "Russia"]) ||
        decide (p = dataPath ++ ["Soviet Union", "subfaction", "Russia", "Infantry"]),
    files := fun p =>
      if p = dataPath ++ ["Soviet Union", "Infantry"] then
        [{ stem := "conscript", content := some (sampleJson "Conscript") }]
      else if p = dataPath ++ ["Soviet Union", "subfaction", "Russia", "Infantry"] then
        [{ stem := "conscript_ru", content := some (sampleJson "Conscript") },
         { stem := "tesla", content := some (sampleJson "Tesla Trooper") }]
      else [] }

/-- The resolved Soviet Union faction directory in fsA and fsB. -/
def fdirB : List String := dataPath ++ ["Soviet Union"]

/-- The resolved Russia subfaction directory in fsB. -/
def sdirB : List String := dataPath ++ ["Soviet Union", "subfaction", "Russia"]

/-- C2 counterexample: on fsA the Russia subfaction directory is missing,
so its Infantry bucket is the base-faction list in glob order
["b", "a"], which is not sorted by name: the claim that after loading
every (faction, subfaction, category) bucket is deduplicated and sorted
is false. -/
theorem c2_counterexample :
    ¬ (((getBucket (load_data fsA).faction_units "Soviet Union" "Russia"
          "Infantry").map (fun u => u.name)).Nodup ∧
       (getBucket (load_data fsA).faction_units "Soviet Union" "Russia"
          "Infantry").Pairwise (fun a b => strLeB a.name b.name = true)) := by
  intro hcon
  have hbucket : getBucket (load_data fsA).faction_units "Soviet Union" "Russia"
      "Infantry" = [unitOf "b" "_base_faction_", unitOf "a" "_base_faction_"] := rfl
  have hp := hcon.2
  rw [hbucket, List.pairwise_cons] at hp
  have hle := hp.1 (unitOf "a" "_base_faction_") (List.mem_cons_self _ _)
  exact absurd hle (by decide)

/-- C1 witness: on fsB the base Conscript record is loaded directly under
the faction directory, and a record with its name is present in the Russia
Infantry bucket. -/
theorem c1_base_faction_inheritance_witness :
    unitOf "Conscript" tempSub ∈ catLoad fsB fdirB "Soviet Union" tempSub "Infantry" ∧
    ∃ v ∈ getBucket (load_data fsB).faction_units "Soviet Union" "Russia" "Infantry",
      v.name = (unitOf "Conscript" tempSub).name := by
  have hmem : unitOf "Conscript" tempSub ∈
      catLoad fsB fdirB "Soviet Union" tempSub "Infantry" := by
    have h : catLoad fsB fdirB "Soviet Union" tempSub "Infantry" =
        [unitOf "Conscript" tempSub] := rfl
    rw [h]
    exact List.mem_cons_self _ _
  exact ⟨hmem, @c1_base_faction_inheritance fsB rfl "Soviet Union"
    ["Russia", "Latin Confederation", "China"] "Russia" "Infantry" fdirB
    (by decide) (by decide) (by decide) rfl (unitOf "Conscript" tempSub) hmem⟩

/-- C2 (amended) witness: on fsB the Russia Infantry bucket has distinct
names and is sorted. -/
theorem c2_amended_witness :
    ((getBucket (load_data fsB).faction_units "Soviet Union" "Russia"
        "Infantry").map (fun u => u.name)).Nodup ∧
    (getBucket (load_data fsB).faction_units "Soviet Union" "Russia"
        "Infantry").Pairwise (fun a b => strLeB a.name b.name = true) :=
  @c2_amended_buckets_unique_sorted fsB rfl "Soviet Union"
    ["Russia", "Latin Confederation", "China"] "Russia" "Infantry" fdirB sdirB
    (by decide) (by decide) (by decide) rfl rfl

/-- C3 witness: on fsB the name Conscript occurs twice in the merged
Russia Infantry bucket; exactly its first (subfaction-specific) occurrence
survives. -/
theorem c3_dedup_first_occurrence_witness :
    ∃ u, (catLoad fsB sdirB "Soviet Union" "Russia" "Infantry" ++
        catLoad fsB fdirB "Soviet Union" tempSub "Infantry").find?
        (fun u => u.name == "Conscript") = some u ∧
      (getBucket (load_data fsB).faction_units "Soviet Union" "Russia"
          "Infantry").filter (fun v => v.name == "Conscript") = [u] :=
  @c3_dedup_first_occurrence fsB rfl "Soviet Union"
    ["Russia", "Latin Confederation", "China"] "Russia" "Infantry" fdirB sdirB
    (by decide) (by decide) (by decide) rfl rfl "Conscript" (by decide)

/-- A concrete search item for the C4 witness. -/
def itemW : SearchItem := mkSearchItem (unitOf "Conscript" "Russia")

/-- C4 witness: instantiated at fsB, the query "conscript" and a concrete
item. -/
theorem c4_search_filters_index_witness :
    (itemW ∈ search_units (load_data fsB) "conscript" ↔
      itemW ∈ (load_data fsB).search_index ∧
        ((∃ p1 p2, (lowerStr itemW.name).data =
            p1 ++ (lowerStr "conscript").data ++ p2) ∨
         (∃ p1 p2, (lowerStr itemW.faction).data =
            p1 ++ (lowerStr "conscript").data ++ p2) ∨
         (∃ p1 p2, (lowerStr itemW.subfaction).data =
            p1 ++ (lowerStr "conscript").data ++ p2) ∨
         (∃ p1 p2, (lowerStr itemW.category).data =
            p1 ++ (lowerStr "conscript").data ++ p2))) ∧
    (search_units (load_data fsB) "conscript").Sublist (load_data fsB).search_index ∧
    (load_data fsB).search_index.Pairwise
      (fun a b => strLeB (lowerStr a.name) (lowerStr b.name) = true) :=
  c4_search_filters_index fsB "conscript" (by decide) itemW

/-- A one-bucket DataManager state for the C8 witness. -/
def dmW : DM :=
  { units := [], search_index := [],
    faction_units := [("f", [("s", [("c", [])])])] }

/-- A file whose parse fails. -/
def badW : JFile := { stem := "bad", content := none }

/-- A parsable file. -/
def goodW : JFile := { stem := "good", content := some (sampleJson "G") }

/-- C8 witness: loading [goodW, badW] equals loading [goodW], and the good
record lands in the bucket. -/
theorem c8_malformed_file_skipped_witness :
    loadFiles "f" "s" "c" ([goodW] ++ badW :: []) dmW =
      loadFiles "f" "s" "c" ([goodW] ++ []) dmW ∧
    (∀ l, bview dmW.faction_units "f" "s" "c" = some l →
      bview (loadFiles "f" "s" "c"
          ([goodW] ++ badW :: []) dmW).faction_units "f" "s" "c" =
        some (l ++ fileUnits "f" "s" "c" ([goodW] ++ []))) :=
  c8_malformed_file_skipped "f" "s" "c" [goodW] [] badW dmW rfl

/-- C10 witness: instantiated on fsB at (Soviet Union, Russia, Infantry). -/
theorem c10_base_faction_placeholder_witness :
    (∀ u ∈ catLoad fsB fdirB "Soviet Union" tempSub "Infantry",
       u.subfaction = "_base_faction_") ∧
    (∀ u ∈ getBucket (load_data fsB).faction_units "Soviet Union" "Russia" "Infantry",
       u.subfaction = "Russia" ∨ u.subfaction = "_base_faction_") ∧
    (∀ it ∈ (load_data fsB).search_index, it.subfaction = it.unit_data.subfaction) ∧
    ("Russia" : String) ≠ "_base_faction_" :=
  @c10_base_faction_placeholder fsB rfl "Soviet Union"
    ["Russia", "Latin Confederation", "China"] "Russia" "Infantry" fdirB
    (by decide) (by decide) (by decide) rfl

/-- A one-unit catalog for the C7 witness. -/
def dmW2 : DM :=
  { units := [], search_index := [],
    faction_units := [("F", [("S", [("C", [unitOf "Conscript" "S"])])])] }

/-- The faction dict of dmW2. -/
def fdW : List (String × List (String × List UnitData)) :=
  [("S", [("C", [unitOf "Conscript" "S"])])]

/-- C7 witness: instantiated on the one-unit catalog. -/
theorem c7_union_lookup_witness :
    (∀ u, u ∈ get_units_for_path dmW2 "F" none none ↔
       ∃ S sd, getA fdW S = some sd ∧ ∃ C l, getA sd C = some l ∧ u ∈ l) ∧
    (∀ S sd, getA fdW S = some sd →
       ∀ u, u ∈ get_units_for_path dmW2 "F" (some S) none ↔
         ∃ C l, getA sd C = some l ∧ u ∈ l) :=
  c7_union_lookup dmW2 "F" fdW rfl (by decide)
    (by
      intro p hp
      rcases List.mem_cons.mp hp with h | h
      · rw [h]
        decide
      · exact absurd h (List.not_mem_nil p))

end MOA
